/-
Verification of the Atlas relevance-pipeline core against its
natural-language specification.

The Rust sources are shallowly embedded: pure functions become Lean
functions over `List`/`Nat`/`String`; `f64` scores are modelled as `ℚ`
where the code only adds, divides and compares (RRF, renderer) and as
`ℝ` where logarithms appear (BM25F, heuristic, hybrid); fallible code
returns `Except`.  Machine integers are modelled as `Nat` (no scored
quantity here can overflow in the scenarios the claims quantify over).
-/
import Mathlib

namespace Atlas


/-! ## Core domain types

`Language` and `FileRole` live in the `topo-core`/`atlas-core` types
module, which is not part of the sources; the variants and their
`as_str` tags below are modelled from the spec (§6 output format) and
the unit tests in `crates/topo-core/src/lib.rs`. -/

/-- Modelled from the spec: language enum (spec §6: lowercase language
names such as "rust", "typescript", "other"); variants taken from the
`topo-core` unit tests. -/
inductive Language where
  | rust | python | javaScript | typeScript | go | cpp | markdown | json | other
deriving DecidableEq, Repr

/-- Modelled from the spec: the lowercase language name used by the
renderer (spec §6). -/
def Language.asStr : Language → String
  | .rust => "rust"
  | .python => "python"
  | .javaScript => "javascript"
  | .typeScript => "typescript"
  | .go => "go"
  | .cpp => "cpp"
  | .markdown => "markdown"
  | .json => "json"
  | .other => "other"

/-- Modelled from the spec: file role enum (spec §4.1). -/
inductive FileRole where
  | implementation | test | config | documentation | generated | build | other
deriving DecidableEq, Repr

/-- Modelled from the spec: the short role tag used by the renderer
(spec §6), matching the `file_role_as_str` unit test. -/
def FileRole.asStr : FileRole → String
  | .implementation => "impl"
  | .test => "test"
  | .config => "config"
  | .documentation => "docs"
  | .generated => "generated"
  | .build => "build"
  | .other => "other"

/-- `FileInfo` (spec §3): scanner output record.  The 32-byte content
digest is modelled as a list of byte values. -/
structure FileInfo where
  path : String
  size : Nat
  language : Language
  role : FileRole
  sha256 : List Nat
deriving DecidableEq, Repr

/-- Modelled from the spec: `FileInfo::estimated_tokens` from the
missing `topo-core` types module — "tokens = size / 4 (integer
division)" (spec §3), matching the `file_info_token_estimate` test. -/
def FileInfo.estimatedTokens (f : FileInfo) : Nat := f.size / 4

/-- `SignalBreakdown` (spec §3), polymorphic in the score scalar. -/
structure SignalBreakdown (α : Type) where
  bm25f : α
  heuristic : α
  pagerank : Option α
  gitRecency : Option α
  embedding : Option α
deriving DecidableEq, Repr

/-- `ScoredFile` (spec §3), polymorphic in the score scalar. -/
structure ScoredFile (α : Type) where
  path : String
  score : α
  signals : SignalBreakdown α
  tokens : Nat
  language : Language
  role : FileRole
deriving DecidableEq, Repr

/-- `TokenBudget` (spec §3): optional byte and token caps. -/
structure TokenBudget where
  maxBytes : Option Nat
  maxTokens : Option Nat
deriving DecidableEq, Repr

/-! ## Tokenizer (`crates/atlas-score/src/tokenizer.rs`)

Strings are processed as their `List Char` data; `tokenize` mirrors
the nested loops of `Tokenizer::tokenize` and `split_camel_case`.
The byte-level uppercase/lowercase tests of `split_camel_case`
coincide with `Char.isUpper`/`Char.isLower` on chars (both are
ASCII-only, and a split index in the byte loop is always a character
boundary). The whitespace test of step 1 is Rust `char::is_whitespace`,
i.e. the Unicode `White_Space` property, embedded below as the explicit
code-point list. Lowercasing is Rust `str::to_lowercase`, a full
Unicode case map; it is embedded exactly on the Latin-1 range
(code points < 256, where it is the single-character shift-by-32 map
on the two uppercase runs and the identity elsewhere, with no
multi-character expansions and no final-sigma context rule), and the
tokenizer claim is stated for Latin-1 input accordingly. -/

/-- `STOP_WORDS` from `tokenizer.rs` (alphabetically sorted, so the
code's binary search agrees with list membership). -/
def stopWords : List String :=
  ["a", "an", "and", "are", "as", "at", "be", "but", "by", "do", "for", "from",
   "had", "has", "have", "he", "her", "his", "how", "i", "if", "in", "into",
   "is", "it", "its", "just", "me", "my", "no", "not", "of", "on", "or",
   "our", "out", "so", "than", "that", "the", "their", "them", "then",
   "there", "these", "they", "this", "to", "up", "us", "was", "we", "were",
   "what", "when", "which", "who", "will", "with", "would", "you", "your"]

/-- Rust `char::is_whitespace`: membership in the Unicode
`White_Space` code points `U+0009`–`U+000D`, `U+0020`, `U+0085`,
`U+00A0`, `U+1680`, `U+2000`–`U+200A`, `U+2028`, `U+2029`, `U+202F`,
`U+205F`, `U+3000`. -/
def rustIsWhitespace (c : Char) : Bool :=
  [9, 10, 11, 12, 13, 32, 133, 160, 5760, 8192, 8193, 8194, 8195, 8196,
   8197, 8198, 8199, 8200, 8201, 8202, 8232, 8233, 8239, 8287,
   12288].contains c.toNat

/-- The separator class of step 1 of the tokenizer: Unicode
whitespace and `/`, `.`, `-`. -/
def isSepChar (c : Char) : Bool :=
  rustIsWhitespace c || c == '/' || c == '.' || c == '-'

/-- Rust `str::to_lowercase`, exactly on the Latin-1 range: the
uppercase runs `A`–`Z` and `À`–`Þ` (multiplication sign `×` excepted)
shift down by 32, every other Latin-1 character is its own lowercase,
and no Latin-1 character has a multi-character or context-dependent
(final sigma) mapping. Outside Latin-1 this embedding is the
identity; `tokenizer_pipeline` therefore assumes Latin-1 input, on
which it coincides with the code for every character. -/
def rustToLower (c : Char) : Char :=
  if 65 ≤ c.toNat && c.toNat ≤ 90 then Char.ofNat (c.toNat + 32)
  else if 192 ≤ c.toNat && c.toNat ≤ 222 && c.toNat != 215 then
    Char.ofNat (c.toNat + 32)
  else c

/-- Rust `str::split` on a character class: the fragments between
separator occurrences, empty fragments included. -/
def splitChars (p : Char → Bool) : List Char → List (List Char)
  | [] => [[]]
  | c :: rest =>
    if p c then [] :: splitChars p rest
    else
      match splitChars p rest with
      | [] => [[c]]
      | f :: fs => (c :: f) :: fs

/-- One step of `split_camel_case`: `seg` is the current segment in
reverse; a camelCase boundary (non-upper → upper) starts a new
segment before the upper, an acronym boundary (upper-run → lower)
starts it one character back. -/
def camelGo : List Char → List Char → List (List Char)
  | seg, [] => [seg.reverse]
  | seg, c :: rest =>
    match seg with
    | [] => camelGo [c] rest
    | prev :: pre =>
      if !prev.isUpper && c.isUpper then
        (prev :: pre).reverse :: camelGo [c] rest
      else if prev.isUpper && c.isLower &&
          (match pre with | p2 :: _ => p2.isUpper | [] => false) then
        pre.reverse :: camelGo [c, prev] rest
      else
        camelGo (c :: prev :: pre) rest

/-- `split_camel_case` from `tokenizer.rs`. -/
def splitCamel : List Char → List (List Char)
  | [] => []
  | c :: rest => camelGo [c] rest

/-- UTF-8 byte length of a piece (Rust `str::len`). -/
def utf8Len (l : List Char) : Nat := (l.map Char.utf8Size).sum

/-- The stop-word test of `tokenizer.rs` (binary search in the sorted
stop-word array, i.e. membership). -/
def isStopWord (l : List Char) : Bool := stopWords.contains (String.mk l)

/-- The keep-filter of step 4: byte length at least 2 and not a
stop word. -/
def keepPiece (l : List Char) : Bool := 2 ≤ utf8Len l && !isStopWord l

/-- `Tokenizer::tokenize` from `tokenizer.rs`: split on Unicode
whitespace/`/`/`.`/`-`, skip empty fragments, split each on `_`,
skip empty parts, split camel boundaries, lowercase, keep pieces with
byte length ≥ 2 that are not stop words. -/
def tokenize (s : String) : List String :=
  ((splitChars isSepChar s.data).filter (· ≠ [])).flatMap fun w =>
    ((splitChars (· == '_') w).filter (· ≠ [])).flatMap fun part =>
      ((((splitCamel part).map (List.map rustToLower)).filter keepPiece).map
        fun l => String.mk l)

/-! ## Decimal representation of sizes

`fingerprint::generate` formats each file size with Rust's `Display`
for `u64`, i.e. standard decimal notation.  A fuel-based definition
keeps it kernel-reducible. -/

/-- The ASCII digit for a value below ten. -/
def digitChar (d : Nat) : Char := Char.ofNat (48 + d)

/-- Decimal digits of `n`, most significant first; `fuel` bounds the
recursion depth and any `fuel > n` is enough. -/
def natReprAux : Nat → Nat → List Char
  | 0, _ => []
  | fuel + 1, n =>
    if n < 10 then [digitChar n]
    else natReprAux fuel (n / 10) ++ [digitChar (n % 10)]

/-- Rust `u64` `Display`: standard decimal representation. -/
def natRepr (n : Nat) : String := String.mk (natReprAux (n + 1) n)

/-! ## Joining with a separator

`fingerprint::generate` joins the sorted entry list with `"\n"`, and
the scanner joins path components with `"/"`; both are `combineSep`
on the underlying character lists.  Joined strings with
separator-free segments can be split back apart, which gives
injectivity. -/

/-- Rust `[String]::join` / path-component joining, at the character
level. -/
def combineSep (sep : Char) : List (List Char) → List Char
  | [] => []
  | [x] => x
  | x :: y :: ys => x ++ sep :: combineSep sep (y :: ys)

/-! ## SHA-256 (`crates/atlas-scanner/src/hash.rs`)

The Rust code delegates to the `sha2` crate; the algorithm itself
(FIPS 180-4) is embedded here over byte lists, bytes and 32-bit words
being `Nat` values reduced mod `2^32` where the machine arithmetic
wraps. -/

/-- `2^32`, the modulus of 32-bit word arithmetic. -/
def w32 : Nat := 4294967296

/-- Right rotation of a 32-bit word. -/
def rotr (n x : Nat) : Nat := x / 2 ^ n + x % 2 ^ n * 2 ^ (32 - n)

/-- Big sigma-0. -/
def bigS0 (x : Nat) : Nat := rotr 2 x ^^^ rotr 13 x ^^^ rotr 22 x

/-- Big sigma-1. -/
def bigS1 (x : Nat) : Nat := rotr 6 x ^^^ rotr 11 x ^^^ rotr 25 x

/-- Small sigma-0. -/
def smallS0 (x : Nat) : Nat := rotr 7 x ^^^ rotr 18 x ^^^ x / 2 ^ 3

/-- Small sigma-1. -/
def smallS1 (x : Nat) : Nat := rotr 17 x ^^^ rotr 19 x ^^^ x / 2 ^ 10

/-- The SHA-256 round constants. -/
def shaK : List Nat :=
  [1116352408, 1899447441, 3049323471, 3921009573, 961987163,
   1508970993, 2453635748, 2870763221, 3624381080, 310598401,
   607225278, 1426881987, 1925078388, 2162078206, 2614888103,
   3248222580, 3835390401, 4022224774, 264347078, 604807628,
   770255983, 1249150122, 1555081692, 1996064986, 2554220882,
   2821834349, 2952996808, 3210313671, 3336571891, 3584528711,
   113926993, 338241895, 666307205, 773529912, 1294757372,
   1396182291, 1695183700, 1986661051, 2177026350, 2456956037,
   2730485921, 2820302411, 3259730800, 3345764771, 3516065817,
   3600352804, 4094571909, 275423344, 430227734, 506948616,
   659060556, 883997877, 958139571, 1322822218, 1537002063,
   1747873779, 1955562222, 2024104815, 2227730452, 2361852424,
   2428436474, 2756734187, 3204031479, 3329325298]

/-- Split a list into chunks of `n + 1` elements. -/
def chunks (n : Nat) : List α → List (List α)
  | [] => []
  | a :: rest => (a :: rest).take (n + 1) :: chunks n ((a :: rest).drop (n + 1))
termination_by l => l.length
decreasing_by
  simp [List.length_drop]
  omega

/-- The sixteen initial schedule words of a 64-byte block
(big-endian). -/
def words16 (block : List Nat) : List Nat :=
  (chunks 3 block).map fun b =>
    b.getD 0 0 * 2 ^ 24 + b.getD 1 0 * 2 ^ 16 + b.getD 2 0 * 2 ^ 8 + b.getD 3 0

/-- Extend the schedule by one word. -/
def schedStep (ws : List Nat) (_i : Nat) : List Nat :=
  ws ++ [(smallS1 (ws.getD (ws.length - 2) 0) + ws.getD (ws.length - 7) 0 +
          smallS0 (ws.getD (ws.length - 15) 0) + ws.getD (ws.length - 16) 0) % w32]

/-- The 64-word message schedule of a block. -/
def schedule (block : List Nat) : List Nat :=
  (List.range 48).foldl schedStep (words16 block)

/-- The eight working variables of the compression function. -/
structure ShaState where
  a : Nat
  b : Nat
  c : Nat
  d : Nat
  e : Nat
  f : Nat
  g : Nat
  h : Nat

/-- One round of the compression function. -/
def compressStep (ws : List Nat) (s : ShaState) (i : Nat) : ShaState :=
  let ch := s.e &&& s.f ^^^ (s.e ^^^ (w32 - 1)) &&& s.g
  let maj := s.a &&& s.b ^^^ s.a &&& s.c ^^^ s.b &&& s.c
  let t1 := (s.h + bigS1 s.e + ch + shaK.getD i 0 + ws.getD i 0) % w32
  let t2 := (bigS0 s.a + maj) % w32
  ⟨(t1 + t2) % w32, s.a, s.b, s.c, (s.d + t1) % w32, s.e, s.f, s.g⟩

/-- Process one 64-byte block. -/
def compressBlock (st : ShaState) (block : List Nat) : ShaState :=
  let f := (List.range 64).foldl (compressStep (schedule block)) st
  ⟨(st.a + f.a) % w32, (st.b + f.b) % w32, (st.c + f.c) % w32,
   (st.d + f.d) % w32, (st.e + f.e) % w32, (st.f + f.f) % w32,
   (st.g + f.g) % w32, (st.h + f.h) % w32⟩

/-- The SHA-256 initial hash value. -/
def shaInit : ShaState :=
  ⟨1779033703, 3144134277, 1013904242, 2773480762,
   1359893119, 2600822924, 528734635, 1541459225⟩

/-- The eight big-endian bytes of a 64-bit length field. -/
def be8 (n : Nat) : List Nat :=
  [n / 2 ^ 56 % 256, n / 2 ^ 48 % 256, n / 2 ^ 40 % 256, n / 2 ^ 32 % 256,
   n / 2 ^ 24 % 256, n / 2 ^ 16 % 256, n / 2 ^ 8 % 256, n % 256]

/-- The four big-endian bytes of a 32-bit word. -/
def be4 (n : Nat) : List Nat :=
  [n / 2 ^ 24 % 256, n / 2 ^ 16 % 256, n / 2 ^ 8 % 256, n % 256]

/-- SHA-256 message padding: `0x80`, zeros to 56 mod 64, then the
bit length as eight big-endian bytes. -/
def padMsg (msg : List Nat) : List Nat :=
  msg ++ 128 :: List.replicate ((119 - msg.length % 64) % 64) 0 ++
    be8 (8 * msg.length)

/-- SHA-256 digest (32 bytes) of a byte list. -/
def sha256Bytes (msg : List Nat) : List Nat :=
  let st := (chunks 63 (padMsg msg)).foldl compressBlock shaInit
  [st.a, st.b, st.c, st.d, st.e, st.f, st.g, st.h].flatMap be4

/-! ## Hex encoding and UTF-8 (`fingerprint.rs` helpers) -/

/-- One lowercase hex digit. -/
def hexDigit (d : Nat) : Char :=
  if d < 10 then Char.ofNat (48 + d) else Char.ofNat (87 + d)

/-- `{b:02x}`: the two lowercase hex digits of a byte. -/
def hexByte (b : Nat) : List Char := [hexDigit (b / 16 % 16), hexDigit (b % 16)]

/-- `hex_encode` from `fingerprint.rs`. -/
def hexEncode (bytes : List Nat) : String := String.mk (bytes.flatMap hexByte)

/-- The UTF-8 bytes of one character. -/
def utf8EncodeChar (c : Char) : List Nat :=
  let v := c.toNat
  if v < 128 then [v]
  else if v < 2048 then [192 + v / 64, 128 + v % 64]
  else if v < 65536 then [224 + v / 4096, 128 + v / 64 % 64, 128 + v % 64]
  else [240 + v / 262144, 128 + v / 4096 % 64, 128 + v / 64 % 64, 128 + v % 64]

/-- The UTF-8 bytes of a string (Rust `str::as_bytes`). -/
def utf8Encode (s : String) : List Nat := s.data.flatMap utf8EncodeChar

/-! ## Fingerprint (`crates/topo-scanner/src/fingerprint.rs`) -/

/-- Byte-lexicographic comparison of character lists (UTF-8 byte
order coincides with code-point order, so this is Rust's `String`
ordering). -/
def charListLe : List Char → List Char → Bool
  | [], _ => true
  | _ :: _, [] => false
  | a :: as, b :: bs =>
    if a.toNat < b.toNat then true
    else if b.toNat < a.toNat then false
    else charListLe as bs

/-- Rust's `String` ordering (`entries.sort()` / `sort_by` on paths). -/
def strLe (a b : String) : Prop := charListLe a.data b.data = true

instance : DecidableRel strLe :=
  fun a b => inferInstanceAs (Decidable (charListLe a.data b.data = true))

instance : IsTotal String strLe := by
  constructor
  intro a b
  suffices h : ∀ as bs : List Char, charListLe as bs = true ∨ charListLe bs as = true by
    exact h a.data b.data
  intro as
  induction as with
  | nil => intro bs; left; rfl
  | cons a as ih =>
    intro bs
    cases bs with
    | nil => right; rfl
    | cons b bs =>
      by_cases h1 : a.toNat < b.toNat
      · left; simp [charListLe, h1]
      · by_cases h2 : b.toNat < a.toNat
        · right; simp [charListLe, h2]
        · rcases ih bs with h | h
          · left; simp [charListLe, h1, h2, h]
          · right; simp [charListLe, h1, h2, h]

instance : IsTrans String strLe := by
  constructor
  intro a b c
  suffices h : ∀ as bs cs : List Char, charListLe as bs = true →
      charListLe bs cs = true → charListLe as cs = true by
    exact h a.data b.data c.data
  intro as
  induction as with
  | nil => intro bs cs _ _; rfl
  | cons a as ih =>
    intro bs cs hab hbc
    cases bs with
    | nil => simp [charListLe] at hab
    | cons b bs =>
      cases cs with
      | nil => simp [charListLe] at hbc
      | cons c cs =>
        simp only [charListLe] at hab hbc ⊢
        by_cases h1 : a.toNat < b.toNat
        · by_cases h3 : b.toNat < c.toNat
          · simp [show a.toNat < c.toNat by omega]
          · by_cases h4 : c.toNat < b.toNat
            · rw [if_neg h3, if_pos h4] at hbc
              exact absurd hbc (by simp)
            · simp [show a.toNat < c.toNat by omega]
        · by_cases h2 : b.toNat < a.toNat
          · rw [if_neg h1, if_pos h2] at hab
            exact absurd hab (by simp)
          · rw [if_neg h1, if_neg h2] at hab
            by_cases h3 : b.toNat < c.toNat
            · simp [show a.toNat < c.toNat by omega]
            · by_cases h4 : c.toNat < b.toNat
              · rw [if_neg h3, if_pos h4] at hbc
                exact absurd hbc (by simp)
              · rw [if_neg h3, if_neg h4] at hbc
                rw [if_neg (show ¬ a.toNat < c.toNat by omega),
                  if_neg (show ¬ c.toNat < a.toNat by omega)]
                exact ih bs cs hab hbc

instance : IsAntisymm String strLe := by
  constructor
  intro a b hab hba
  suffices h : ∀ as bs : List Char, charListLe as bs = true →
      charListLe bs as = true → as = bs by
    have hd := h a.data b.data hab hba
    cases a; cases b; exact congrArg String.mk hd
  intro as
  induction as with
  | nil =>
    intro bs h1 h2
    cases bs with
    | nil => rfl
    | cons b bs => simp [charListLe] at h2
  | cons a as ih =>
    intro bs h1 h2
    cases bs with
    | nil => simp [charListLe] at h1
    | cons b bs =>
      simp only [charListLe] at h1 h2
      by_cases hx : a.toNat < b.toNat
      · rw [if_neg (show ¬ b.toNat < a.toNat by omega), if_pos hx] at h2
        exact absurd h2 (by simp)
      · by_cases hy : b.toNat < a.toNat
        · rw [if_neg hx, if_pos hy] at h1
          exact absurd h1 (by simp)
        · rw [if_neg hx, if_neg hy] at h1
          rw [if_neg hy, if_neg hx] at h2
          have hnat : a.toNat = b.toNat := by omega
          have hc : a = b := Char.ext (UInt32.ext hnat)
          rw [hc, ih bs h1 h2]

/-- The `"{path}:{size}"` entry of one file. -/
def entryOf (f : FileInfo) : String := f.path ++ ":" ++ natRepr f.size

/-- The string that `generate` hashes: sorted entries joined with
newlines. -/
def fingerprintInput (files : List FileInfo) : String :=
  String.mk (combineSep '\n'
    ((List.insertionSort strLe (files.map entryOf)).map String.data))

/-- `fingerprint::generate`: SHA-256 of the sorted `"{path}:{size}"`
listing, lowercase hex encoded. -/
def generate (files : List FileInfo) : String :=
  hexEncode (sha256Bytes (utf8Encode (fingerprintInput files)))

/-! ## Scanner (`crates/topo-scanner/src/scanner.rs`)

The filesystem walk is modelled as a stream of walker items: either a
walk error or a directory entry carrying its root-relative path
components, its directory flag, a fallible `stat` result and a
fallible content-hash result.  `Scanner::scan` consumes the stream
exactly as the Rust loop does: every fallible step `continue`s on
failure.  Language and role classification live in the missing
`topo-core` types module, so `scan` is parametric in the two
classifiers. -/

/-- The `stat` data `scan` reads: regular-file flag and size. -/
structure ScanMeta where
  isRegularFile : Bool
  size : Nat
deriving DecidableEq, Repr

/-- A successful walker entry. -/
structure WalkEntryData where
  comps : List String
  isDirEntry : Bool
  meta : Except Unit ScanMeta
  hashRes : Except Unit (List Nat)
deriving Repr

/-- One item yielded by the `ignore` walker: an error or an entry. -/
abbrev WalkItem := Except Unit WalkEntryData

/-- Join relative-path components with `/` (the platform separator of
`to_string_lossy` on the scan host). -/
def joinPath (comps : List String) : String :=
  String.mk (combineSep '/' (comps.map String.data))

/-- The per-item body of the `scan` loop: `none` is the Rust
`continue`. -/
def processEntry (langOf : String → Language) (roleOf : String → FileRole) :
    WalkItem → Option FileInfo
  | .error _ => none
  | .ok e =>
    if e.isDirEntry then none
    else if e.comps = [] then none
    else if e.comps.head? = some ".topo" then none
    else
      match e.meta with
      | .error _ => none
      | .ok m =>
        if !m.isRegularFile then none
        else
          match e.hashRes with
          | .error _ => none
          | .ok hsh =>
            some ⟨joinPath e.comps, m.size, langOf (joinPath e.comps),
                  roleOf (joinPath e.comps), hsh⟩

/-- Ordering of scan output: ascending by path. -/
def pathLe (a b : FileInfo) : Prop := strLe a.path b.path

instance : DecidableRel pathLe := fun a b => inferInstanceAs (Decidable (strLe a.path b.path))

instance : IsTotal FileInfo pathLe := ⟨fun a b => IsTotal.total (r := strLe) a.path b.path⟩

instance : IsTrans FileInfo pathLe :=
  ⟨fun _ _ _ h1 h2 => IsTrans.trans (r := strLe) _ _ _ h1 h2⟩

/-- `Scanner::scan`: process every walker item, swallowing all
per-item failures, and sort the surviving records by path.  The Rust
signature is fallible (`anyhow::Result`) but no branch of the loop
produces an error. -/
def scan (langOf : String → Language) (roleOf : String → FileRole)
    (items : List WalkItem) : Except String (List FileInfo) :=
  .ok (List.insertionSort pathLe (items.filterMap (processEntry langOf roleOf)))

/-- The components of a non-root walker entry, for phrasing
distinctness of the walked filesystem. -/
def itemComps : WalkItem → Option (List String)
  | .error _ => none
  | .ok e => if e.comps = [] then none else some e.comps

/-- A walker item on which the scan loop hits an I/O failure: a walk
error, a failed `stat`, or a failed content hash. -/
def itemErrored : WalkItem → Prop
  | .error _ => True
  | .ok e => e.meta = .error () ∨ e.hashRes = .error ()

/-! ## Renderer (`crates/topo-render/src/jsonl.rs`)

Output is modelled as the list of JSONL records that `write_to`
serializes, one per line. -/

/-- One line of JSONL v0.3 output. -/
inductive JsonRecord (α : Type) where
  | header (version query preset : String) (maxBytes : Option Nat) (minScore : α)
  | fileRecord (path : String) (score : α) (tokens : Nat) (language role : String)
  | footer (totalFiles totalTokens scannedFiles : Nat)
deriving DecidableEq, Repr

/-- `JsonlWriter` configuration. -/
structure JsonlWriter (α : Type) where
  query : String
  preset : String
  maxBytes : Option Nat
  minScore : α
deriving DecidableEq, Repr

/-- The `FileEntry` record written for one scored file. -/
def fileRecordOf {α : Type} (f : ScoredFile α) : JsonRecord α :=
  .fileRecord f.path f.score f.tokens f.language.asStr f.role.asStr

/-- `JsonlWriter::write_to`: header, one record per scored file in
order, then the footer with the written-file count and token sum. -/
def JsonlWriter.writeTo {α : Type} (w : JsonlWriter α) (files : List (ScoredFile α))
    (scannedCount : Nat) : List (JsonRecord α) :=
  JsonRecord.header "0.3" w.query w.preset w.maxBytes w.minScore
    :: (files.map fileRecordOf ++
        [JsonRecord.footer files.length (files.map (·.tokens)).sum scannedCount])

/-! ## Budget enforcer (`TokenBudget::enforce`)

The implementation lives in the `topo-core` types module, which is
not among the sources; it is modelled from spec §4.8 ("walk the list
accumulating `bytes = size = tokens * 4` and `tokens`; include a file
if both cumulative sums remain within the respective caps; always
include the first file; stop at the first overflow") and validated
against the `topo-core` unit tests. -/

/-- Whether a cumulative value fits under an optional cap. -/
def capOk (cap : Option Nat) (v : Nat) : Bool :=
  match cap with
  | none => true
  | some c => v ≤ c

/-- Modelled from the spec: the accumulation loop of
`TokenBudget::enforce` over the files after the first. -/
def enforceGo {α : Type} (b : TokenBudget) (bytes tokens : Nat) :
    List (ScoredFile α) → List (ScoredFile α)
  | [] => []
  | f :: rest =>
    if capOk b.maxBytes (bytes + f.tokens * 4) &&
       capOk b.maxTokens (tokens + f.tokens) then
      f :: enforceGo b (bytes + f.tokens * 4) (tokens + f.tokens) rest
    else []

/-- Modelled from the spec: `TokenBudget::enforce` from the missing
`topo-core` types module (spec §4.8, greedy prefix with a first-file
guarantee). -/
def TokenBudget.enforce {α : Type} (b : TokenBudget) :
    List (ScoredFile α) → List (ScoredFile α)
  | [] => []
  | f :: rest => f :: enforceGo b (f.tokens * 4) f.tokens rest

/-- Token sum of a scored list. -/
def sumTok {α : Type} (l : List (ScoredFile α)) : Nat := (l.map (·.tokens)).sum

/-! ## Reciprocal rank fusion (`crates/atlas-score/src/fusion.rs`)

RRF only adds and divides small constants, so its `f64` scores are
modelled exactly as `ℚ`.  The `HashMap` accumulation of `fuse` is
modelled denotationally: the fused score of a path is the sum of its
contributions, and the result set is the collection of all paths
occurring in the rankings. -/

/-- What one ranking adds to a path's fused score: `1 / (k + rank + 1)`
for every occurrence (0-based ranks). -/
def rrfContribution (k : ℚ) (p : String) (ranking : List String) : ℚ :=
  ((ranking.enum.filter (fun x => x.2 = p)).map
    (fun x => 1 / (k + (x.1 : ℚ) + 1))).sum

/-- The fused RRF score of a path over all rankings. -/
def rrfScore (k : ℚ) (rankings : List (List String)) (p : String) : ℚ :=
  (rankings.map (rrfContribution k p)).sum

/-- `RrfResult` from `fusion.rs`. -/
structure RrfResult where
  path : String
  rrfScore : ℚ
deriving DecidableEq, Repr

/-- Descending order on fused results. -/
def rrfGe (a b : RrfResult) : Prop := b.rrfScore ≤ a.rrfScore

instance : DecidableRel rrfGe := fun a b => inferInstanceAs (Decidable (b.rrfScore ≤ a.rrfScore))

instance : IsTotal RrfResult rrfGe := ⟨fun a b => le_total b.rrfScore a.rrfScore⟩

instance : IsTrans RrfResult rrfGe := ⟨fun _ _ _ h1 h2 => le_trans h2 h1⟩

/-- `RrfFusion::fuse`: score every path occurring in some ranking and
sort descending by fused score. -/
def fuse (k : ℚ) (rankings : List (List String)) : List RrfResult :=
  List.insertionSort rrfGe
    ((rankings.flatten.dedup).map (fun p => ⟨p, rrfScore k rankings p⟩))

/-- Descending order on `ℚ`-scored files. -/
def scoredGeQ (a b : ScoredFile ℚ) : Prop := b.score ≤ a.score

instance : DecidableRel scoredGeQ := fun a b => inferInstanceAs (Decidable (b.score ≤ a.score))

instance : IsTotal (ScoredFile ℚ) scoredGeQ := ⟨fun a b => le_total b.score a.score⟩

instance : IsTrans (ScoredFile ℚ) scoredGeQ := ⟨fun _ _ _ h1 h2 => le_trans h2 h1⟩

/-- `RrfFusion::fuse_scored`: with no additional rankings, return the
base unchanged; otherwise use the base's current order as one more
ranking, replace every file's score by its RRF score (every base path
occurs in the base ranking, so the `HashMap` lookup always hits), and
re-sort descending. -/
def fuseScored (k : ℚ) (base : List (ScoredFile ℚ))
    (additionalRankings : List (List String)) : List (ScoredFile ℚ) :=
  if additionalRankings = [] then base
  else
    List.insertionSort scoredGeQ
      (base.map (fun f =>
        { f with score := rrfScore k (base.map (·.path) :: additionalRankings) f.path }))

/-! ## BM25F (`crates/topo-score/src/bm25f.rs`)

`f64` arithmetic with `ln` is modelled over `ℝ`.  Term-frequency maps
are modelled as functions `String → Option TermFreqs` (`HashMap::get`)
and document-frequency maps as total functions defaulting to 0
(`get(..).copied().unwrap_or(0)`). -/

/-- `TermFreqs` (spec §3): per-field non-negative counts. -/
structure TermFreqs where
  filename : Nat
  symbols : Nat
  body : Nat
deriving DecidableEq, Repr

/-- BM25F field weight `W_FILENAME`. -/
def wFilename : ℝ := 5.0

/-- BM25F field weight `W_SYMBOLS`. -/
def wSymbols : ℝ := 3.0

/-- BM25F field weight `W_BODY`. -/
def wBody : ℝ := 1.0

/-- BM25F parameter `K1`. -/
def bmK1 : ℝ := 1.2

/-- BM25F parameter `B`. -/
def bmB : ℝ := 0.75

/-- `CorpusStats` from `bm25f.rs`. -/
structure CorpusStats where
  totalDocs : Nat
  avgDocLength : ℝ
  docFrequencies : String → Nat

/-- `CorpusStats::from_documents`: count documents and lengths, and
for each term the number of documents whose term-frequency map
contains it. -/
noncomputable def CorpusStats.fromDocuments
    (docs : List (String × (String → Option TermFreqs) × Nat)) : CorpusStats where
  totalDocs := docs.length
  avgDocLength :=
    if 0 < docs.length then (Nat.cast ((docs.map (fun d => d.2.2)).sum) : ℝ) / docs.length
    else 1.0
  docFrequencies := fun t => docs.countP (fun d => (d.2.1 t).isSome)

/-- `CorpusStats::from_paths` (shallow mode): tokenize each path; a
term's document frequency counts the paths whose token set contains
it, and the average length is the mean token count. -/
noncomputable def CorpusStats.fromPaths (paths : List String) : CorpusStats where
  totalDocs := paths.length
  avgDocLength :=
    if paths = [] then 1.0
    else (Nat.cast ((paths.map (fun p => (tokenize p).length)).sum) : ℝ) / paths.length
  docFrequencies := fun t => paths.countP (fun p => (tokenize p).contains t)

/-- `Bm25fScorer`. -/
structure Bm25fScorer where
  queryTokens : List String
  stats : CorpusStats

/-- `Bm25fScorer::new`. -/
def Bm25fScorer.new (query : String) (stats : CorpusStats) : Bm25fScorer :=
  ⟨tokenize query, stats⟩

/-- The length-normalization factor `1 - B + B * (dl / avgdl)`. -/
noncomputable def lengthNorm (stats : CorpusStats) (docLength : Nat) : ℝ :=
  1.0 - bmB + bmB * ((docLength : ℝ) / stats.avgDocLength)

/-- `idf(t) = ln((N - df + 0.5) / (df + 0.5) + 1)`. -/
noncomputable def idfOf (stats : CorpusStats) (t : String) : ℝ :=
  Real.log (((stats.totalDocs : ℝ) - (stats.docFrequencies t : ℝ) + 0.5) /
    ((stats.docFrequencies t : ℝ) + 0.5) + 1.0)

/-- The field-weighted term frequency (`0.0` when the map misses). -/
noncomputable def tfWeighted (termFreqs : String → Option TermFreqs) (t : String) : ℝ :=
  match termFreqs t with
  | some f => wFilename * (f.filename : ℝ) + wSymbols * (f.symbols : ℝ) + wBody * (f.body : ℝ)
  | none => 0.0

/-- `Bm25fScorer::score`: zero for an empty query or corpus,
otherwise the accumulated `idf * tf / (tf + K1 * length_norm)` over
query tokens with positive weighted term frequency. -/
noncomputable def Bm25fScorer.score (s : Bm25fScorer)
    (termFreqs : String → Option TermFreqs) (docLength : Nat) : ℝ :=
  if s.queryTokens = [] ∨ s.stats.totalDocs = 0 then 0.0
  else
    (s.queryTokens.map fun t =>
      if 0 < tfWeighted termFreqs t then
        idfOf s.stats t * tfWeighted termFreqs t /
          (tfWeighted termFreqs t + bmK1 * lengthNorm s.stats docLength)
      else 0.0).sum

/-- The filename-field term-frequency map `score_path` builds from
the tokenized path. -/
def pathTermFreqs (path : String) (t : String) : Option TermFreqs :=
  let c := (tokenize path).count t
  if 0 < c then some ⟨c, 0, 0⟩ else none

/-- `Bm25fScorer::score_path` (shallow mode). -/
noncomputable def Bm25fScorer.scorePath (s : Bm25fScorer) (path : String) : ℝ :=
  s.score (pathTermFreqs path) (tokenize path).length

/-! ## Heuristic scorer (`crates/atlas-score/src/heuristic.rs`) -/

/-- `HeuristicScorer`. -/
structure HeuristicScorer where
  queryTokens : List String

/-- `HeuristicScorer::new`. -/
def HeuristicScorer.new (query : String) : HeuristicScorer := ⟨tokenize query⟩

/-- `keyword_score`: the fraction of query tokens present among the
path's tokens. -/
noncomputable def keywordScore (s : HeuristicScorer) (path : String) : ℝ :=
  if s.queryTokens = [] then 0.0
  else ((s.queryTokens.countP (fun qt => (tokenize path).contains qt)) : ℝ) /
    (s.queryTokens.length : ℝ)

/-- `role_score`. -/
def roleScore : FileRole → ℝ
  | .implementation => 1.0
  | .build => 0.6
  | .test => 0.5
  | .config => 0.3
  | .documentation => 0.2
  | .other => 0.1
  | .generated => 0.05

/-- `depth_score`: separator count buckets. -/
def depthScore (path : String) : ℝ :=
  match path.data.countP (fun c => c == '/' || c == '\\') with
  | 0 => 1.0
  | 1 => 0.9
  | 2 => 0.7
  | 3 => 0.5
  | 4 => 0.3
  | _ => 0.1

/-- `wellknown_score`: bonus by first path component. -/
def wellknownScore (path : String) : ℝ :=
  let first := String.mk (path.data.takeWhile (fun c => !(c == '/' || c == '\\')))
  if first ∈ ["src", "lib", "cmd", "pkg", "app", "internal", "crates"] then 1.0
  else if first ∈ ["bin", "server", "api", "core", "modules"] then 0.8
  else if first ∈ ["test", "tests", "spec", "e2e"] then 0.5
  else if first ∈ ["docs", "doc", "examples", "scripts"] then 0.3
  else if first ∈ ["vendor", "node_modules", "third_party"] then 0.0
  else 0.4

/-- `size_score`: size buckets. -/
def sizeScore (size : Nat) : ℝ :=
  if size ≤ 1000 then 0.9
  else if size ≤ 5000 then 1.0
  else if size ≤ 20000 then 0.8
  else if size ≤ 100000 then 0.5
  else if size ≤ 500000 then 0.2
  else 0.05

/-- `HeuristicScorer::score`: the weighted sum of the five signals,
clamped to `[0, 1]`. -/
noncomputable def HeuristicScorer.score (s : HeuristicScorer) (path : String)
    (role : FileRole) (size : Nat) : ℝ :=
  min (max (keywordScore s path * 0.4 + roleScore role * 0.25 +
    depthScore path * 0.15 + wellknownScore path * 0.1 + sizeScore size * 0.1) 0.0) 1.0

/-! ## Hybrid scorer (`crates/atlas-score/src/hybrid.rs`) -/

/-- `HybridScorer` with its two weights. -/
structure HybridScorer where
  bm25fWeight : ℝ
  heuristicWeight : ℝ
  query : String

/-- `HybridScorer::new`: default weights `(0.6, 0.4)`. -/
def HybridScorer.new (query : String) : HybridScorer := ⟨0.6, 0.4, query⟩

/-- `HybridScorer::weights`: normalize custom weights to sum to one
when their total is positive, otherwise keep the current weights. -/
noncomputable def HybridScorer.weights (s : HybridScorer) (bm heu : ℝ) : HybridScorer :=
  if 0 < bm + heu then
    { s with bm25fWeight := bm / (bm + heu), heuristicWeight := heu / (bm + heu) }
  else s

/-- Descending order on `ℝ`-scored files. -/
def scoredGeR (a b : ScoredFile ℝ) : Prop := b.score ≤ a.score

noncomputable instance : DecidableRel scoredGeR :=
  fun a b => inferInstanceAs (Decidable (b.score ≤ a.score))

instance : IsTotal (ScoredFile ℝ) scoredGeR := ⟨fun a b => le_total b.score a.score⟩

instance : IsTrans (ScoredFile ℝ) scoredGeR := ⟨fun _ _ _ h1 h2 => le_trans h2 h1⟩

/-- The `ScoredFile` record built for one file inside
`HybridScorer::score`. -/
noncomputable def mkScored (s : HybridScorer) (bm : Bm25fScorer) (he : HeuristicScorer)
    (f : FileInfo) : ScoredFile ℝ :=
  { path := f.path
    score := s.bm25fWeight * bm.scorePath f.path +
      s.heuristicWeight * he.score f.path f.role f.size
    signals := ⟨bm.scorePath f.path, he.score f.path f.role f.size, none, none, none⟩
    tokens := f.estimatedTokens
    language := f.language
    role := f.role }

/-- `HybridScorer::score`: build shallow corpus stats from the file
paths, score every file, and sort descending (stable). -/
noncomputable def HybridScorer.score (s : HybridScorer) (files : List FileInfo) :
    List (ScoredFile ℝ) :=
  if files = [] then []
  else
    List.insertionSort scoredGeR
      (files.map (mkScored s
        (Bm25fScorer.new s.query (CorpusStats.fromPaths (files.map (·.path))))
        (HeuristicScorer.new s.query)))

/-! ## The tokenizer as the spec words it

For the refutation of the tokenizer claim, a second tokenizer follows
the claim's wording literally: case splits happen at lower-to-upper
boundaries (the code splits at any non-upper-to-upper boundary), and
pieces shorter than 2 *characters* are dropped (the code measures
UTF-8 bytes). -/

/-- The camel walk as the claim words it: a new segment starts only at
a lower-to-upper boundary. -/
def camelGoByClaim : List Char → List Char → List (List Char)
  | seg, [] => [seg.reverse]
  | seg, c :: rest =>
    match seg with
    | [] => camelGoByClaim [c] rest
    | prev :: pre =>
      if prev.isLower && c.isUpper then
        (prev :: pre).reverse :: camelGoByClaim [c] rest
      else if prev.isUpper && c.isLower &&
          (match pre with | p2 :: _ => p2.isUpper | [] => false) then
        pre.reverse :: camelGoByClaim [c, prev] rest
      else
        camelGoByClaim (c :: prev :: pre) rest

/-- Case splitting as the claim words it. -/
def splitCamelByClaim : List Char → List (List Char)
  | [] => []
  | c :: rest => camelGoByClaim [c] rest

/-- The keep-filter as the claim words it: at least 2 characters. -/
def keepPieceByClaim (l : List Char) : Bool := 2 ≤ l.length && !isStopWord l

/-- The tokenizer as the claim words it. -/
def tokenizeByClaim (s : String) : List String :=
  ((splitChars isSepChar s.data).filter (· ≠ [])).flatMap fun w =>
    ((splitChars (· == '_') w).filter (· ≠ [])).flatMap fun part =>
      ((((splitCamelByClaim part).map (List.map rustToLower)).filter
        keepPieceByClaim).map fun l => String.mk l)

/-! ## Supporting lemmas -/

theorem natReprAux_fuel_eq : ∀ fuel₁ fuel₂ n, n < fuel₁ → n < fuel₂ →
    natReprAux fuel₁ n = natReprAux fuel₂ n := by
  intro fuel₁
  induction fuel₁ with
  | zero => intro fuel₂ n h; omega
  | succ f ih =>
    intro fuel₂ n h₁ h₂
    match fuel₂, h₂ with
    | g + 1, _ =>
      simp only [natReprAux]
      by_cases hn : n < 10
      · simp [hn]
      · have hd : n / 10 < n := Nat.div_lt_self (by omega) (by omega)
        simp only [hn, if_false]
        rw [ih g (n / 10) (by omega) (by omega)]

theorem natRepr_data_of_ten_le {n : Nat} (h : 10 ≤ n) :
    (natRepr n).data = (natRepr (n / 10)).data ++ [digitChar (n % 10)] := by
  have hd : n / 10 < n := Nat.div_lt_self (by omega) (by omega)
  have h1 : natReprAux (n + 1) n = natReprAux n (n / 10) ++ [digitChar (n % 10)] := by
    simp only [natReprAux]
    rw [if_neg (by omega)]
  show natReprAux (n + 1) n = _
  rw [h1, natReprAux_fuel_eq n (n / 10 + 1) (n / 10) (by omega) (by omega)]
  rfl

theorem natRepr_data_of_lt_ten {n : Nat} (h : n < 10) :
    (natRepr n).data = [digitChar n] := by
  show natReprAux (n + 1) n = [digitChar n]
  simp [natReprAux, h]

theorem natRepr_data_ne_nil (n : Nat) : (natRepr n).data ≠ [] := by
  by_cases h : n < 10
  · rw [natRepr_data_of_lt_ten h]; simp
  · rw [natRepr_data_of_ten_le (by omega)]; simp

theorem digitChar_inj : ∀ d < 10, ∀ e < 10, digitChar d = digitChar e → d = e := by
  decide

theorem natRepr_inj : ∀ m n : Nat, natRepr m = natRepr n → m = n := by
  intro m
  induction m using Nat.strong_induction_on with
  | _ m ih =>
    intro n h
    have hdata : (natRepr m).data = (natRepr n).data := by rw [h]
    by_cases hm : m < 10 <;> by_cases hn : n < 10
    · rw [natRepr_data_of_lt_ten hm, natRepr_data_of_lt_ten hn] at hdata
      exact digitChar_inj m hm n hn (List.cons.injEq .. ▸ hdata).1
    · exfalso
      have hlen := congrArg List.length hdata
      rw [natRepr_data_of_lt_ten hm,
        natRepr_data_of_ten_le (show 10 ≤ n by omega)] at hlen
      simp only [List.length_append, List.length_singleton] at hlen
      have h3 : (natRepr (n / 10)).data.length ≠ 0 :=
        fun h0 => natRepr_data_ne_nil (n / 10) (List.length_eq_zero.mp h0)
      omega
    · exfalso
      have hlen := congrArg List.length hdata
      rw [natRepr_data_of_ten_le (show 10 ≤ m by omega),
        natRepr_data_of_lt_ten hn] at hlen
      simp only [List.length_append, List.length_singleton] at hlen
      have h3 : (natRepr (m / 10)).data.length ≠ 0 :=
        fun h0 => natRepr_data_ne_nil (m / 10) (List.length_eq_zero.mp h0)
      omega
    · rw [natRepr_data_of_ten_le (show 10 ≤ m by omega),
        natRepr_data_of_ten_le (show 10 ≤ n by omega)] at hdata
      have hrev := congrArg List.reverse hdata
      simp only [List.reverse_append, List.reverse_cons, List.reverse_nil,
        List.nil_append, List.singleton_append, List.cons.injEq] at hrev
      obtain ⟨hdig, htail⟩ := hrev
      have hq : m / 10 = n / 10 := by
        apply ih (m / 10) (Nat.div_lt_self (by omega) (by omega))
        apply String.ext
        exact List.reverse_injective htail
      have hr : m % 10 = n % 10 :=
        digitChar_inj _ (Nat.mod_lt _ (by omega)) _ (Nat.mod_lt _ (by omega)) hdig
      omega

theorem sepFree_append_inj (sep : Char) :
    ∀ x y a b : List Char, sep ∉ x → sep ∉ y →
      x ++ sep :: a = y ++ sep :: b → x = y ∧ a = b := by
  intro x
  induction x with
  | nil =>
    intro y a b _ hy h
    cases y with
    | nil => simpa using h
    | cons c y' =>
      simp only [List.nil_append, List.cons_append, List.cons.injEq] at h
      exact absurd (h.1 ▸ List.mem_cons_self c y') hy
  | cons c x' ih =>
    intro y a b hx hy h
    cases y with
    | nil =>
      simp only [List.cons_append, List.nil_append, List.cons.injEq] at h
      exact absurd (h.1.symm ▸ List.mem_cons_self c x') hx
    | cons d y' =>
      simp only [List.cons_append, List.cons.injEq] at h
      obtain ⟨rfl, h⟩ := h
      have := ih y' a b (fun hm => hx (List.mem_cons_of_mem _ hm))
        (fun hm => hy (List.mem_cons_of_mem _ hm)) h
      exact ⟨by rw [this.1], this.2⟩

theorem combineSep_inj (sep : Char) :
    ∀ xs ys : List (List Char), (∀ x ∈ xs, sep ∉ x) → (∀ y ∈ ys, sep ∉ y) →
      xs ≠ [] → ys ≠ [] → combineSep sep xs = combineSep sep ys → xs = ys := by
  intro xs
  induction xs with
  | nil => intro ys _ _ hne; exact absurd rfl hne
  | cons x xs' ih =>
    intro ys hxs hys _ hysne h
    cases ys with
    | nil => exact absurd rfl hysne
    | cons y ys' =>
      cases xs' with
      | nil =>
        cases ys' with
        | nil => simpa [combineSep] using h
        | cons y' ys'' =>
          simp only [combineSep] at h
          have hmem : sep ∈ x := by
            rw [h]
            exact List.mem_append_right y (List.mem_cons_self sep _)
          exact absurd hmem (hxs x (List.mem_cons_self x _))
      | cons x' xs'' =>
        cases ys' with
        | nil =>
          simp only [combineSep] at h
          have hmem : sep ∈ y := by
            rw [← h]
            exact List.mem_append_right x (List.mem_cons_self sep _)
          exact absurd hmem (hys y (List.mem_cons_self y _))
        | cons y' ys'' =>
          simp only [combineSep] at h
          obtain ⟨h1, h2⟩ := sepFree_append_inj sep x y _ _
            (hxs x (List.mem_cons_self x _)) (hys y (List.mem_cons_self y _)) h
          have := ih (y' :: ys'')
            (fun z hz => hxs z (List.mem_cons_of_mem _ hz))
            (fun z hz => hys z (List.mem_cons_of_mem _ hz))
            (by simp) (by simp) h2
          rw [h1, this]

theorem sha256Bytes_length (msg : List Nat) : (sha256Bytes msg).length = 32 := by
  simp [sha256Bytes, be4]

theorem hexEncode_length (bytes : List Nat) :
    (hexEncode bytes).length = 2 * bytes.length := by
  show (bytes.flatMap hexByte).length = 2 * bytes.length
  induction bytes with
  | nil => rfl
  | cons b rest ih => simp [hexByte] at ih ⊢; omega

theorem generate_length (files : List FileInfo) : (generate files).length = 64 := by
  show (hexEncode (sha256Bytes (utf8Encode (fingerprintInput files)))).length = 64
  rw [hexEncode_length, sha256Bytes_length]

theorem generate_perm {files files' : List FileInfo} (hp : files.Perm files') :
    generate files = generate files' := by
  have hsort : List.insertionSort strLe (files.map entryOf) =
      List.insertionSort strLe (files'.map entryOf) := by
    apply List.eq_of_perm_of_sorted (r := strLe)
    · exact (List.perm_insertionSort _ _).trans ((hp.map entryOf).trans
        (List.perm_insertionSort _ _).symm)
    · exact List.sorted_insertionSort _ _
    · exact List.sorted_insertionSort _ _
  unfold generate fingerprintInput
  rw [hsort]

theorem natRepr_mem_digit : ∀ n : Nat, ∀ c ∈ (natRepr n).data, ∃ d < 10, c = digitChar d := by
  intro n
  induction n using Nat.strong_induction_on with
  | _ n ih =>
    intro c hc
    by_cases h : n < 10
    · rw [natRepr_data_of_lt_ten h] at hc
      exact ⟨n, h, (List.mem_singleton.mp hc)⟩
    · rw [natRepr_data_of_ten_le (by omega)] at hc
      rcases List.mem_append.mp hc with h1 | h2
      · exact ih (n / 10) (Nat.div_lt_self (by omega) (by omega)) c h1
      · exact ⟨n % 10, Nat.mod_lt _ (by omega), List.mem_singleton.mp h2⟩

theorem digitChar_ne_newline : ∀ d < 10, digitChar d ≠ '\n' := by decide

theorem entryOf_data (f : FileInfo) :
    (entryOf f).data = f.path.data ++ ':' :: (natRepr f.size).data := by
  show (f.path ++ ":" ++ natRepr f.size).data = _
  rw [String.data_append, String.data_append, List.append_assoc]
  rfl

theorem entryOf_newline_free {f : FileInfo} (h : '\n' ∉ f.path.data) :
    '\n' ∉ (entryOf f).data := by
  rw [entryOf_data]
  intro hmem
  rcases List.mem_append.mp hmem with h1 | h2
  · exact h h1
  · rcases List.mem_cons.mp h2 with h3 | h4
    · exact absurd h3.symm (by decide)
    · obtain ⟨d, hd, hc⟩ := natRepr_mem_digit _ _ h4
      exact digitChar_ne_newline d hd hc.symm

theorem entryOf_ne_of_path_ne {f f' : FileInfo} (hs : f.size = f'.size)
    (hp : f.path ≠ f'.path) : entryOf f ≠ entryOf f' := by
  intro h
  apply hp
  have hd := congrArg String.data h
  rw [entryOf_data, entryOf_data, hs] at hd
  have hlen : f.path.data.length = f'.path.data.length := by
    have := congrArg List.length hd
    simp only [List.length_append, List.length_cons] at this
    omega
  exact String.ext (List.append_inj hd hlen).1

theorem entryOf_ne_of_size_ne {f f' : FileInfo} (hp : f.path = f'.path)
    (hs : f.size ≠ f'.size) : entryOf f ≠ entryOf f' := by
  intro h
  apply hs
  have hd := congrArg String.data h
  rw [entryOf_data, entryOf_data, hp] at hd
  have htail := (List.append_inj hd rfl).2
  exact natRepr_inj _ _ (String.ext (List.cons.injEq .. ▸ htail).2)

theorem fingerprintInput_perm_of_eq {F F' : List FileInfo}
    (hF : ∀ f ∈ F, '\n' ∉ f.path.data) (hF' : ∀ f ∈ F', '\n' ∉ f.path.data)
    (hne : F ≠ []) (hne' : F' ≠ [])
    (h : fingerprintInput F = fingerprintInput F') :
    (F.map entryOf).Perm (F'.map entryOf) := by
  have hinj : Function.Injective String.data := fun a b hab => by
    cases a; cases b; exact congrArg String.mk hab
  have hcomb : combineSep '\n'
      ((List.insertionSort strLe (F.map entryOf)).map String.data) =
      combineSep '\n'
      ((List.insertionSort strLe (F'.map entryOf)).map String.data) := by
    have := congrArg String.data h
    simpa [fingerprintInput] using this
  have hsegs : ∀ (G : List FileInfo), (∀ f ∈ G, '\n' ∉ f.path.data) →
      ∀ x ∈ (List.insertionSort strLe (G.map entryOf)).map String.data,
        '\n' ∉ x := by
    intro G hG x hx
    obtain ⟨e, he, rfl⟩ := List.mem_map.mp hx
    have he2 : e ∈ G.map entryOf := (List.perm_insertionSort _ _).mem_iff.mp he
    obtain ⟨f, hf, rfl⟩ := List.mem_map.mp he2
    exact entryOf_newline_free (hG f hf)
  have hlen : ∀ (G : List FileInfo), G ≠ [] →
      (List.insertionSort strLe (G.map entryOf)).map String.data ≠ [] := by
    intro G hG hnil
    apply hG
    have h1 := congrArg List.length hnil
    simp only [List.length_map, List.length_insertionSort, List.length_nil] at h1
    exact List.length_eq_zero.mp h1
  have hmaps := combineSep_inj '\n' _ _ (hsegs F hF) (hsegs F' hF')
    (hlen F hne) (hlen F' hne') hcomb
  have hsorts : List.insertionSort strLe (F.map entryOf) =
      List.insertionSort strLe (F'.map entryOf) :=
    List.map_injective_iff.mpr hinj hmaps
  exact (List.perm_insertionSort _ _).symm.trans
    (hsorts ▸ List.perm_insertionSort strLe (F'.map entryOf))

theorem not_perm_middle {α : Type} [DecidableEq α] {pre post : List α} {e e' : α}
    (h : e ≠ e') : ¬ (pre ++ e :: post).Perm (pre ++ e' :: post) := by
  intro hp
  have hc := hp.count_eq e
  rw [List.count_append, List.count_append, List.count_cons_self,
    List.count_cons_of_ne h] at hc
  omega

theorem capOk_mono {cap : Option Nat} {v v' : Nat} (h : v ≤ v')
    (hok : capOk cap v' = true) : capOk cap v = true := by
  cases cap with
  | none => rfl
  | some c => simp [capOk] at hok ⊢; omega

theorem enforceGo_isPrefix {α : Type} (b : TokenBudget) :
    ∀ (rest : List (ScoredFile α)) (bytes tokens : Nat),
      enforceGo b bytes tokens rest <+: rest := by
  intro rest
  induction rest with
  | nil => intro _ _; exact List.prefix_rfl
  | cons f rs ih =>
    intro bytes tokens
    rw [enforceGo]
    split
    · obtain ⟨t, ht⟩ := ih (bytes + f.tokens * 4) (tokens + f.tokens)
      exact ⟨t, by rw [List.cons_append, ht]⟩
    · exact List.nil_prefix

theorem enforceGo_length_iff {α : Type} (b : TokenBudget) :
    ∀ (rest : List (ScoredFile α)) (bytes tokens : Nat) (i : Nat), i < rest.length →
      (i < (enforceGo b bytes tokens rest).length ↔
        (capOk b.maxBytes (bytes + 4 * sumTok (rest.take (i + 1))) = true ∧
         capOk b.maxTokens (tokens + sumTok (rest.take (i + 1))) = true)) := by
  intro rest
  induction rest with
  | nil => intro _ _ i hi; simp at hi
  | cons f rs ih =>
    intro bytes tokens i hi
    rw [enforceGo]
    by_cases hc : capOk b.maxBytes (bytes + f.tokens * 4) = true ∧
        capOk b.maxTokens (tokens + f.tokens) = true
    · rw [if_pos (by simp [hc.1, hc.2])]
      cases i with
      | zero =>
        simp only [List.length_cons, Nat.zero_lt_succ, true_iff]
        simpa [sumTok, Nat.mul_comm] using hc
      | succ k =>
        have hk : k < rs.length := by simpa using hi
        have := ih (bytes + f.tokens * 4) (tokens + f.tokens) k hk
        simp only [List.length_cons, Nat.succ_lt_succ_iff]
        rw [this]
        simp [sumTok, Nat.mul_add, Nat.add_assoc, Nat.mul_comm]
    · rw [if_neg (by simpa using fun h1 h2 => hc ⟨h1, h2⟩)]
      simp only [List.length_nil, Nat.not_lt_zero, false_iff]
      intro hcaps
      apply hc
      have hle : f.tokens ≤ sumTok ((f :: rs).take (i + 1)) := by
        cases i <;> simp [sumTok]
      exact ⟨capOk_mono (by omega) hcaps.1, capOk_mono (by omega) hcaps.2⟩

theorem enumFrom_rrf_not_mem (k : ℚ) (p : String) :
    ∀ (l : List String) (n : Nat), p ∉ l →
      (((l.enumFrom n).filter (fun x => x.2 = p)).map
        (fun x => 1 / (k + (x.1 : ℚ) + 1))).sum = 0 := by
  intro l
  induction l with
  | nil => intro n _; rfl
  | cons a t ih =>
    intro n hmem
    rw [List.enumFrom, List.filter_cons]
    have ha : ¬ (a = p) := fun h => hmem (h ▸ List.mem_cons_self a t)
    simp only [decide_eq_true_eq, ha, if_false]
    exact ih (n + 1) (fun h => hmem (List.mem_cons_of_mem _ h))

theorem enumFrom_rrf_mem (k : ℚ) (p : String) :
    ∀ (l : List String) (n : Nat), l.Nodup → p ∈ l →
      (((l.enumFrom n).filter (fun x => x.2 = p)).map
        (fun x => 1 / (k + (x.1 : ℚ) + 1))).sum =
        1 / (k + ((n + l.indexOf p : Nat) : ℚ) + 1) := by
  intro l
  induction l with
  | nil => intro n _ h; simp at h
  | cons a t ih =>
    intro n hnd hmem
    rw [List.enumFrom, List.filter_cons]
    by_cases ha : a = p
    · subst ha
      have hnt : a ∉ t := (List.nodup_cons.mp hnd).1
      simp only [decide_eq_true_eq, eq_self_iff_true, if_true, List.map_cons,
        List.sum_cons]
      rw [enumFrom_rrf_not_mem k a t (n + 1) hnt, List.indexOf_cons_self]
      simp
    · have hmt : p ∈ t := by
        rcases List.mem_cons.mp hmem with h | h
        · exact absurd h.symm ha
        · exact h
      simp only [decide_eq_true_eq, ha, if_false]
      rw [ih (n + 1) (List.Nodup.of_cons hnd) hmt]
      have hidx : List.indexOf p (a :: t) = List.indexOf p t + 1 := by
        rw [List.indexOf_cons]
        simp [show ¬ (a == p) = true by simpa using ha]
      rw [hidx]
      have harg : n + 1 + List.indexOf p t = n + (List.indexOf p t + 1) := by omega
      rw [harg]

theorem rrfContribution_not_mem {k : ℚ} {p : String} {ranking : List String}
    (h : p ∉ ranking) : rrfContribution k p ranking = 0 := by
  have := enumFrom_rrf_not_mem k p ranking 0 h
  simpa [rrfContribution, List.enum, one_div] using this

theorem rrfContribution_mem {k : ℚ} {p : String} {ranking : List String}
    (hnd : ranking.Nodup) (h : p ∈ ranking) :
    rrfContribution k p ranking = 1 / (k + (ranking.indexOf p : ℚ) + 1) := by
  have := enumFrom_rrf_mem k p ranking 0 hnd h
  simpa [rrfContribution, List.enum, one_div] using this

/-! Stability of the descending insertion sort: the sublist of
records at any fixed score is unchanged, which is exactly the
stable-tie-break guarantee of Rust's `sort_by`. -/

theorem orderedInsert_filter_eq (a : ScoredFile ℝ) :
    ∀ (l : List (ScoredFile ℝ)), l.Sorted scoredGeR → ∀ c : ℝ,
      (l.orderedInsert scoredGeR a).filter (fun x => decide (x.score = c)) =
        if a.score = c then a :: l.filter (fun x => decide (x.score = c))
        else l.filter (fun x => decide (x.score = c)) := by
  intro l
  induction l with
  | nil =>
    intro _ c
    simp only [List.orderedInsert, List.filter_cons, List.filter_nil]
    by_cases hac : a.score = c <;> simp [hac]
  | cons b t ih =>
    intro hs c
    rw [List.orderedInsert]
    by_cases hab : scoredGeR a b
    · rw [if_pos hab]
      by_cases hac : a.score = c <;> simp [List.filter_cons, hac]
    · rw [if_neg hab]
      have hlt : a.score < b.score := lt_of_not_le hab
      have ht := ih (List.Sorted.of_cons hs) c
      by_cases hac : a.score = c
      · have hbc : ¬ (b.score = c) := by
          intro h
          rw [h, hac] at hlt
          exact lt_irrefl c hlt
        rw [if_pos hac] at ht
        simp [List.filter_cons, hbc, ht, hac]
      · rw [if_neg hac] at ht
        by_cases hbc : b.score = c <;> simp [List.filter_cons, hbc, ht, hac]

theorem insertionSort_filter_eq :
    ∀ (l : List (ScoredFile ℝ)) (c : ℝ),
      (List.insertionSort scoredGeR l).filter (fun x => decide (x.score = c)) =
        l.filter (fun x => decide (x.score = c)) := by
  intro l
  induction l with
  | nil => intro c; rfl
  | cons a t ih =>
    intro c
    rw [List.insertionSort,
      orderedInsert_filter_eq a _ (List.sorted_insertionSort _ _) c]
    by_cases hac : a.score = c <;> simp [List.filter_cons, hac, ih c]

theorem processEntry_none_of_errored (lo : String → Language) (ro : String → FileRole)
    {it : WalkItem} (h : itemErrored it) : processEntry lo ro it = none := by
  match it with
  | .error _ => rfl
  | .ok e =>
    obtain ⟨comps, isDir, meta, hashRes⟩ := e
    rcases h with hm | hh
    · cases hm
      simp only [processEntry]
      split_ifs <;> rfl
    · cases hh
      simp only [processEntry]
      cases meta with
      | error u => split_ifs <;> rfl
      | ok m => split_ifs <;> simp

/-! ## Claims -/

/-- Claim C1, amended: the renderer writes a per-file record for
*every* file it is given, regardless of `MinScore` (which appears only
in the header); the output is header, one record per file in order,
then a footer whose `TotalFiles` is the full input count and whose
`TotalTokens` is the token sum over all input files. -/
theorem renderer_writes_all_records (α : Type) (w : JsonlWriter α)
    (files : List (ScoredFile α)) (scanned : Nat) :
    (w.writeTo files scanned).length = files.length + 2 ∧
    (w.writeTo files scanned).head? =
      some (JsonRecord.header "0.3" w.query w.preset w.maxBytes w.minScore) ∧
    (w.writeTo files scanned).getLast? =
      some (JsonRecord.footer files.length (files.map (·.tokens)).sum scanned) ∧
    (∀ f ∈ files, fileRecordOf f ∈ w.writeTo files scanned) ∧
    (∀ m : α, (JsonlWriter.writeTo ⟨w.query, w.preset, w.maxBytes, m⟩ files scanned).tail =
      (w.writeTo files scanned).tail) := by
  refine ⟨?_, rfl, ?_, ?_, fun m => rfl⟩
  · show (JsonRecord.header "0.3" w.query w.preset w.maxBytes w.minScore
      :: (files.map fileRecordOf ++
          [JsonRecord.footer files.length (files.map (·.tokens)).sum scanned])).length =
      files.length + 2
    simp
  · show (JsonRecord.header "0.3" w.query w.preset w.maxBytes w.minScore
      :: (files.map fileRecordOf ++
          [JsonRecord.footer files.length (files.map (·.tokens)).sum scanned])).getLast? = _
    rw [← List.cons_append]
    exact List.getLast?_concat _
  · intro f hf
    exact List.mem_cons_of_mem _ (List.mem_append_left _ (List.mem_map_of_mem _ hf))

/-- Claim C1, witness: the record of a concrete file is among the
written records. -/
theorem renderer_writes_all_records_witness :
    fileRecordOf (⟨"a.rs", (9 : ℚ)/10, ⟨0, 0, none, none, none⟩, 100, .rust,
      .implementation⟩ : ScoredFile ℚ) ∈
      (JsonlWriter.mk "q" "balanced" none ((1 : ℚ)/10)).writeTo
        [⟨"a.rs", (9 : ℚ)/10, ⟨0, 0, none, none, none⟩, 100, .rust, .implementation⟩] 1 :=
  (renderer_writes_all_records ℚ _ _ 1).2.2.2.1 _ (List.mem_singleton.mpr rfl)

/-- Claim C1, counterexample: with `min_score = 1/10` and three files
one of which scores `1/20`, the renderer still writes five lines
(header + 3 records + footer) with footer `TotalFiles = 3`, and the
sub-threshold file's record is among them — not the four lines and
`TotalFiles = 2` the claim asserts. -/
theorem renderer_min_score_counterexample :
    (((JsonlWriter.mk "q" "balanced" none ((1 : ℚ)/10)).writeTo
      [⟨"a.rs", (9 : ℚ)/10, ⟨0, 0, none, none, none⟩, 100, .rust, .implementation⟩,
       ⟨"b.rs", (1 : ℚ)/2, ⟨0, 0, none, none, none⟩, 200, .rust, .implementation⟩,
       ⟨"c.rs", (1 : ℚ)/20, ⟨0, 0, none, none, none⟩, 30, .rust, .implementation⟩]
      3).length = 5 ∧
     ¬ (((JsonlWriter.mk "q" "balanced" none ((1 : ℚ)/10)).writeTo
      [⟨"a.rs", (9 : ℚ)/10, ⟨0, 0, none, none, none⟩, 100, .rust, .implementation⟩,
       ⟨"b.rs", (1 : ℚ)/2, ⟨0, 0, none, none, none⟩, 200, .rust, .implementation⟩,
       ⟨"c.rs", (1 : ℚ)/20, ⟨0, 0, none, none, none⟩, 30, .rust, .implementation⟩]
      3).length = 4) ∧
     ((JsonlWriter.mk "q" "balanced" none ((1 : ℚ)/10)).writeTo
      [⟨"a.rs", (9 : ℚ)/10, ⟨0, 0, none, none, none⟩, 100, .rust, .implementation⟩,
       ⟨"b.rs", (1 : ℚ)/2, ⟨0, 0, none, none, none⟩, 200, .rust, .implementation⟩,
       ⟨"c.rs", (1 : ℚ)/20, ⟨0, 0, none, none, none⟩, 30, .rust, .implementation⟩]
      3).getLast? = some (JsonRecord.footer 3 330 3) ∧
     JsonRecord.fileRecord "c.rs" ((1 : ℚ)/20) 30 "rust" "impl" ∈
      (JsonlWriter.mk "q" "balanced" none ((1 : ℚ)/10)).writeTo
      [⟨"a.rs", (9 : ℚ)/10, ⟨0, 0, none, none, none⟩, 100, .rust, .implementation⟩,
       ⟨"b.rs", (1 : ℚ)/2, ⟨0, 0, none, none, none⟩, 200, .rust, .implementation⟩,
       ⟨"c.rs", (1 : ℚ)/20, ⟨0, 0, none, none, none⟩, 30, .rust, .implementation⟩]
      3) := by
  refine ⟨rfl, ?_, rfl, ?_⟩
  · intro h
    have h5 : (5 : Nat) = 4 := by
      rw [← h]
      rfl
    exact absurd h5 (by decide)
  · simp [JsonlWriter.writeTo, fileRecordOf, Language.asStr, FileRole.asStr]

/-- Claim C2, amended: an error on an individual walker item (walk
error, failed stat, failed hash) only omits that item while the scan
continues; and `scan` never fails — in particular a walk error on the
root (nonexistent root directory) also yields a successful result
rather than a propagated error, as the `scanner_nonexistent_path`
test asserts. -/
theorem scan_error_handling (lo : String → Language) (ro : String → FileRole) :
    (∀ (pre post : List WalkItem) (it : WalkItem), itemErrored it →
      scan lo ro (pre ++ it :: post) = scan lo ro (pre ++ post)) ∧
    (∀ items : List WalkItem, ∃ fs, scan lo ro items = .ok fs) := by
  constructor
  · intro pre post it h
    simp [scan, List.filterMap_append, List.filterMap_cons,
      processEntry_none_of_errored lo ro h]
  · intro items
    exact ⟨_, rfl⟩

/-- Claim C2, witness: a stream with one failed-stat entry between two
good files scans to the same result as the stream without it. -/
theorem scan_error_handling_witness :
    scan (fun _ => Language.other) (fun _ => FileRole.other)
      ([Except.ok ⟨["a.rs"], false, .ok ⟨true, 8⟩, .ok [1]⟩] ++
       (Except.ok ⟨["gone.rs"], false, .error (), .error ()⟩ : WalkItem) ::
       [Except.ok ⟨["b.rs"], false, .ok ⟨true, 4⟩, .ok [2]⟩]) =
    scan (fun _ => Language.other) (fun _ => FileRole.other)
      ([Except.ok ⟨["a.rs"], false, .ok ⟨true, 8⟩, .ok [1]⟩] ++
       [Except.ok ⟨["b.rs"], false, .ok ⟨true, 4⟩, .ok [2]⟩]) :=
  (scan_error_handling _ _).1 _ _ _ (Or.inl rfl)

/-- Claim C2, counterexample: a total failure on the root (the walker
yields a single error item, as for a nonexistent root) produces the
*successful* empty result, not a propagated error. -/
theorem scan_root_error_counterexample :
    scan (fun _ => Language.other) (fun _ => FileRole.other) [Except.error ()] =
      Except.ok [] := rfl

/-- Claim C3 (spec-modelled, the `topo-core` types module is not in
the sources): `TokenBudget::enforce` returns a prefix of its input; a
nonempty input always keeps its first file; and a later file at
position `i ≥ 1` is kept exactly when the cumulative byte sum
(`tokens * 4` per file) and cumulative token sum through it fit the
respective caps — enforcement stops at the first overflow and never
considers later files. -/
theorem budget_enforce_greedy (α : Type) (b : TokenBudget)
    (files : List (ScoredFile α)) :
    (b.enforce files <+: files) ∧
    (∀ f rest, files = f :: rest → (b.enforce files).head? = some f) ∧
    (∀ i, 1 ≤ i → i < files.length →
      (i < (b.enforce files).length ↔
        capOk b.maxBytes (4 * sumTok (files.take (i + 1))) = true ∧
        capOk b.maxTokens (sumTok (files.take (i + 1))) = true)) := by
  refine ⟨?_, ?_, ?_⟩
  · cases files with
    | nil => exact List.prefix_rfl
    | cons f rest =>
      obtain ⟨t, ht⟩ := enforceGo_isPrefix b rest (f.tokens * 4) f.tokens
      exact ⟨t, by rw [TokenBudget.enforce, List.cons_append, ht]⟩
  · intro f rest hf
    subst hf
    rfl
  · intro i h1 h2
    cases files with
    | nil => simp at h2
    | cons f rest =>
      match i, h1 with
      | Nat.succ k, _ =>
        have hk : k < rest.length := by simpa using h2
        have H := enforceGo_length_iff b rest (f.tokens * 4) f.tokens k hk
        have hlen : (b.enforce (f :: rest)).length =
            (enforceGo b (f.tokens * 4) f.tokens rest).length + 1 := by
          rw [TokenBudget.enforce]
          rfl
        have hs : sumTok ((f :: rest).take (k + 1 + 1)) =
            f.tokens + sumTok (rest.take (k + 1)) := by
          simp [sumTok]
        rw [hlen, hs, Nat.succ_lt_succ_iff,
          show 4 * (f.tokens + sumTok (rest.take (k + 1))) =
            f.tokens * 4 + 4 * sumTok (rest.take (k + 1)) from by ring]
        exact H

/-- Claim C3, witness: with `max_tokens = 250` over token counts
`[100, 200, 300]` the output is a prefix that stops before the second
file (cumulative 300 > 250), exactly the `budget_max_tokens_truncates`
unit test. -/
theorem budget_enforce_greedy_witness :
    ¬ (1 < ((TokenBudget.mk none (some 250)).enforce
      [⟨"a.rs", (0 : ℚ), ⟨0, 0, none, none, none⟩, 100, .rust, .implementation⟩,
       ⟨"b.rs", (0 : ℚ), ⟨0, 0, none, none, none⟩, 200, .rust, .implementation⟩,
       ⟨"c.rs", (0 : ℚ), ⟨0, 0, none, none, none⟩, 300, .rust, .implementation⟩]).length) ∧
    ((TokenBudget.mk none (some 250)).enforce
      [⟨"a.rs", (0 : ℚ), ⟨0, 0, none, none, none⟩, 100, .rust, .implementation⟩,
       ⟨"b.rs", (0 : ℚ), ⟨0, 0, none, none, none⟩, 200, .rust, .implementation⟩,
       ⟨"c.rs", (0 : ℚ), ⟨0, 0, none, none, none⟩, 300, .rust, .implementation⟩]) <+:
      [⟨"a.rs", (0 : ℚ), ⟨0, 0, none, none, none⟩, 100, .rust, .implementation⟩,
       ⟨"b.rs", (0 : ℚ), ⟨0, 0, none, none, none⟩, 200, .rust, .implementation⟩,
       ⟨"c.rs", (0 : ℚ), ⟨0, 0, none, none, none⟩, 300, .rust, .implementation⟩] := by
  have H := budget_enforce_greedy ℚ (TokenBudget.mk none (some 250))
    [⟨"a.rs", (0 : ℚ), ⟨0, 0, none, none, none⟩, 100, .rust, .implementation⟩,
     ⟨"b.rs", (0 : ℚ), ⟨0, 0, none, none, none⟩, 200, .rust, .implementation⟩,
     ⟨"c.rs", (0 : ℚ), ⟨0, 0, none, none, none⟩, 300, .rust, .implementation⟩]
  refine ⟨?_, H.1⟩
  intro h
  have hcaps := (H.2.2 1 (by decide) (by decide)).mp h
  exact absurd hcaps.2 (by decide)

/-- Claim C5, amended: the fingerprint always has 64 hex characters;
the empty list yields the hash of the empty string; permuting the
input never changes the fingerprint; and for lists whose paths
contain no newline, renaming a path or changing a size always changes
the serialized listing that is hashed (for paths containing newlines
a rename can leave even the serialization, hence the fingerprint,
unchanged — see the counterexample). -/
theorem fingerprint_spec (files : List FileInfo) :
    (generate files).length = 64 ∧
    generate [] = hexEncode (sha256Bytes (utf8Encode "")) ∧
    (∀ files', files.Perm files' → generate files = generate files') ∧
    (∀ pre post f f', files = pre ++ f :: post →
      (∀ g ∈ files, '\n' ∉ g.path.data) → '\n' ∉ f'.path.data →
      f'.size = f.size → f'.path ≠ f.path →
      fingerprintInput files ≠ fingerprintInput (pre ++ f' :: post)) ∧
    (∀ pre post f f', files = pre ++ f :: post →
      (∀ g ∈ files, '\n' ∉ g.path.data) →
      f'.path = f.path → f'.size ≠ f.size →
      fingerprintInput files ≠ fingerprintInput (pre ++ f' :: post)) := by
  refine ⟨generate_length files, rfl, fun _ hp => generate_perm hp, ?_, ?_⟩
  · intro pre post f f' hfiles hnl hnl' hsz hpath heq
    subst hfiles
    have hF' : ∀ g ∈ pre ++ f' :: post, '\n' ∉ g.path.data := by
      intro g hg
      rcases List.mem_append.mp hg with h | h
      · exact hnl g (List.mem_append_left _ h)
      · rcases List.mem_cons.mp h with h | h
        · exact h ▸ hnl'
        · exact hnl g (List.mem_append_right _ (List.mem_cons_of_mem _ h))
    have hperm := fingerprintInput_perm_of_eq hnl hF' (by simp) (by simp) heq
    rw [List.map_append, List.map_cons, List.map_append, List.map_cons] at hperm
    exact not_perm_middle
      (entryOf_ne_of_path_ne hsz.symm (fun hh => hpath hh.symm)) hperm
  · intro pre post f f' hfiles hnl hpath hsz heq
    subst hfiles
    have hF' : ∀ g ∈ pre ++ f' :: post, '\n' ∉ g.path.data := by
      intro g hg
      rcases List.mem_append.mp hg with h | h
      · exact hnl g (List.mem_append_left _ h)
      · rcases List.mem_cons.mp h with h | h
        · rw [h, hpath]
          exact hnl f (List.mem_append_right _ (List.mem_cons_self f post))
        · exact hnl g (List.mem_append_right _ (List.mem_cons_of_mem _ h))
    have hperm := fingerprintInput_perm_of_eq hnl hF' (by simp) (by simp) heq
    rw [List.map_append, List.map_cons, List.map_append, List.map_cons] at hperm
    exact not_perm_middle
      (entryOf_ne_of_size_ne hpath.symm (fun hh => hsz hh.symm)) hperm

/-- Claim C5, witness: renaming `"a"` to `"c"` (size unchanged) in a
newline-free listing changes the hashed serialization. -/
theorem fingerprint_spec_witness :
    fingerprintInput [⟨"a", 1, .other, .other, []⟩, ⟨"b", 2, .other, .other, []⟩] ≠
      fingerprintInput [⟨"c", 1, .other, .other, []⟩, ⟨"b", 2, .other, .other, []⟩] :=
  (fingerprint_spec _).2.2.2.1 [] [⟨"b", 2, .other, .other, []⟩]
    ⟨"a", 1, .other, .other, []⟩ ⟨"c", 1, .other, .other, []⟩ rfl
    (by decide) (by decide) rfl (by decide)

/-- Claim C5, counterexample: for paths containing newlines, renaming
a single path (same size) can leave the fingerprint unchanged — the
two listings below serialize to the same string, so the claim's
"renaming a path always changes the fingerprint" is false as stated. -/
theorem fingerprint_rename_collision :
    generate [⟨"x:7\ny:7\nx", 7, .other, .other, []⟩,
              ⟨"y:7\nx", 7, .other, .other, []⟩] =
      generate [⟨"x:7\ny:7\nx", 7, .other, .other, []⟩,
                ⟨"x:7\ny", 7, .other, .other, []⟩] ∧
    ("y:7\nx" : String) ≠ "x:7\ny" := by
  refine ⟨?_, by decide⟩
  have h : fingerprintInput [⟨"x:7\ny:7\nx", 7, .other, .other, []⟩,
      ⟨"y:7\nx", 7, .other, .other, []⟩] =
      fingerprintInput [⟨"x:7\ny:7\nx", 7, .other, .other, []⟩,
        ⟨"x:7\ny", 7, .other, .other, []⟩] := by decide
  show hexEncode (sha256Bytes (utf8Encode _)) = hexEncode (sha256Bytes (utf8Encode _))
  rw [h]

theorem splitChars_cons (p : Char → Bool) (c : Char) (rest : List Char) :
    splitChars p (c :: rest) =
      if p c then [] :: splitChars p rest
      else
        match splitChars p rest with
        | [] => [[c]]
        | f :: fs => (c :: f) :: fs := rfl

theorem camelGo_cons_cons (prev : Char) (pre : List Char) (c : Char)
    (rest : List Char) :
    camelGo (prev :: pre) (c :: rest) =
      if !prev.isUpper && c.isUpper then
        (prev :: pre).reverse :: camelGo [c] rest
      else if prev.isUpper && c.isLower &&
          (match pre with | p2 :: _ => p2.isUpper | [] => false) then
        pre.reverse :: camelGo [c, prev] rest
      else
        camelGo (c :: prev :: pre) rest := rfl

theorem flatMap_filter_ne {β : Type} :
    ∀ (l : List (List Char)) (f : List Char → List β), f [] = [] →
      (l.filter (· ≠ [])).flatMap f = l.flatMap f := by
  intro l f hf
  induction l with
  | nil => rfl
  | cons x xs ih =>
    rw [List.filter_cons]
    by_cases hx : x = []
    · subst hx
      rw [if_neg (by simp)]
      rw [List.flatMap_cons, hf, List.nil_append, ih]
    · rw [if_pos (by simpa using hx)]
      rw [List.flatMap_cons, List.flatMap_cons, ih]

theorem camelGo_flatten :
    ∀ (rest seg : List Char), (camelGo seg rest).flatten = seg.reverse ++ rest := by
  intro rest
  induction rest with
  | nil => intro seg; simp [camelGo]
  | cons c rest ih =>
    intro seg
    cases seg with
    | nil =>
      show (camelGo [c] rest).flatten = [].reverse ++ c :: rest
      rw [ih [c]]
      rfl
    | cons prev pre =>
      rw [camelGo_cons_cons]
      split
      · rw [List.flatten_cons, ih [c]]
        simp
      · split
        · rw [List.flatten_cons, ih [c, prev]]
          simp
        · rw [ih (c :: prev :: pre)]
          simp

theorem splitCamel_flatten : ∀ l : List Char, (splitCamel l).flatten = l := by
  intro l
  cases l with
  | nil => rfl
  | cons c rest =>
    rw [splitCamel, camelGo_flatten rest [c]]
    rfl

theorem splitChars_ne_nil (p : Char → Bool) : ∀ l : List Char, splitChars p l ≠ [] := by
  intro l
  cases l with
  | nil => simp [splitChars]
  | cons c rest =>
    rw [splitChars]
    split
    · simp
    · cases h : splitChars p rest <;> simp

theorem splitChars_append (p : Char → Bool) :
    ∀ (l₁ : List Char) (c : Char) (l₂ : List Char), p c = true →
      splitChars p (l₁ ++ c :: l₂) = splitChars p l₁ ++ splitChars p l₂ := by
  intro l₁
  induction l₁ with
  | nil =>
    intro c l₂ hc
    show splitChars p (c :: l₂) = _
    rw [splitChars_cons, if_pos hc]
    rfl
  | cons d l₁ ih =>
    intro c l₂ hc
    show splitChars p (d :: (l₁ ++ c :: l₂)) = splitChars p (d :: l₁) ++ _
    rw [splitChars_cons, splitChars_cons]
    by_cases hd : p d = true
    · rw [if_pos hd, if_pos hd, ih c l₂ hc]
      rfl
    · rw [if_neg hd, if_neg hd, ih c l₂ hc]
      cases hsp : splitChars p l₁ with
      | nil => exact absurd hsp (splitChars_ne_nil p l₁)
      | cons f fs => simp

/-- Claim C6, amended: for Latin-1 input (where the embedded Unicode
lowercase map is exact), the tokenizer is the composition
split-on-separators / split-on-underscores / split-at-case-boundaries
followed by Unicode lowercasing and a final filter — the separator
class is Unicode whitespace (`char::is_whitespace`, which includes
`U+000B`, `U+000C`, `U+00A0`) plus `/`, `.`, `-`, the camelCase
boundary is *any non-uppercase to uppercase* transition (not only
lower-to-upper), and the length filter drops pieces shorter than 2
*UTF-8 bytes* (not characters).  The case splitter loses no
characters, output order is input order with duplicates preserved
(tokenizing a whitespace-joined pair concatenates the token lists),
and every emitted token has byte length at least 2 and is not a stop
word. -/
theorem tokenizer_pipeline (s : String) (_hL : ∀ c ∈ s.data, c.toNat < 256) :
    (tokenize s = ((((splitChars isSepChar s.data).flatMap
        (fun w => (splitChars (· == '_') w).flatMap splitCamel)).map
        (List.map rustToLower)).filter keepPiece).map (fun l => String.mk l)) ∧
    (∀ l : List Char, (splitCamel l).flatten = l) ∧
    (∀ s₂ : String, tokenize (s ++ " " ++ s₂) = tokenize s ++ tokenize s₂) ∧
    (∀ t ∈ tokenize s, 2 ≤ utf8Len t.data ∧ t ∉ stopWords) := by
  refine ⟨?_, splitCamel_flatten, ?_, ?_⟩
  · have h1 : tokenize s = (splitChars isSepChar s.data).flatMap
        (fun w => ((splitChars (· == '_') w).filter (· ≠ [])).flatMap
          (fun part => (((splitCamel part).map (List.map rustToLower)).filter
            keepPiece).map (fun l => String.mk l))) :=
      flatMap_filter_ne _ _ rfl
    have h2 : ∀ w, ((splitChars (· == '_') w).filter (· ≠ [])).flatMap
        (fun part => (((splitCamel part).map (List.map rustToLower)).filter
          keepPiece).map (fun l => String.mk l)) =
        (splitChars (· == '_') w).flatMap
        (fun part => (((splitCamel part).map (List.map rustToLower)).filter
          keepPiece).map (fun l => String.mk l)) :=
      fun w => flatMap_filter_ne _ _ rfl
    rw [h1]
    simp only [h2]
    rw [List.map_flatMap, List.filter_flatMap, List.map_flatMap]
    refine congrArg _ (funext fun w => ?_)
    rw [List.map_flatMap, List.filter_flatMap, List.map_flatMap]
  · intro s₂
    have hd : (s ++ " " ++ s₂).data = s.data ++ ' ' :: s₂.data := by
      rw [String.data_append, String.data_append, List.append_assoc]
      rfl
    show ((splitChars isSepChar (s ++ " " ++ s₂).data).filter (· ≠ [])).flatMap _ = _
    rw [hd, splitChars_append isSepChar s.data ' ' s₂.data (by decide),
      List.filter_append, List.flatMap_append]
    rfl
  · intro t ht
    obtain ⟨w, _, hw⟩ := List.mem_flatMap.mp ht
    obtain ⟨part, _, hpart⟩ := List.mem_flatMap.mp hw
    obtain ⟨l, hl, rfl⟩ := List.mem_map.mp hpart
    have hk := List.of_mem_filter hl
    have hk2 : (2 ≤ utf8Len l ∧ isStopWord l = false) := by
      simpa [keepPiece] using hk
    refine ⟨hk2.1, ?_⟩
    intro hmem
    have : isStopWord l = true := by
      simp only [isStopWord]
      exact List.elem_eq_true_of_mem hmem
    rw [this] at hk2
    exact absurd hk2.2 (by simp)

/-- Claim C6, witness: `"hello world"` is Latin-1, and a concrete
token of it has byte length at least 2 and is not a stop word. -/
theorem tokenizer_pipeline_witness :
    (∀ c ∈ ("hello world" : String).data, c.toNat < 256) ∧
    (2 ≤ utf8Len ("hello" : String).data ∧ ("hello" : String) ∉ stopWords) :=
  ⟨by decide,
   (tokenizer_pipeline "hello world" (by decide)).2.2.2 "hello" (by decide)⟩

/-- Claim C6, counterexample: the code splits `"12Ab"` before `'A'`
(digit-to-upper is a boundary) where the claim's lower-to-upper rule
would not, and keeps the 1-character 2-byte token `"é"` that the
claim's character-length filter would drop.  The last two conjuncts
exercise the Unicode parts of the embedding: `"ÉTÉ"` is lowercased to
`"é"`/`"té"` by the Latin-1 case map, and a form feed (`U+000C`,
Unicode whitespace outside `Char.isWhitespace`) separates `"a\x0Ca"`
into two length-1 pieces that are both dropped. -/
theorem tokenizer_counterexample :
    tokenize "12Ab" = ["12", "ab"] ∧ tokenizeByClaim "12Ab" = ["12ab"] ∧
    tokenize "é" = ["é"] ∧ tokenizeByClaim "é" = [] ∧
    tokenize "ÉTÉ" = ["é", "té"] ∧ tokenize "a\x0Ca" = [] := by
  refine ⟨by decide, by decide, by decide, by decide, by decide, by decide⟩

/-- Claim C7: the fused RRF score of a path is the sum over rankings
of `1 / (60 + rank + 1)` (0-based rank; absent paths contribute 0);
`fuse` sorts descending by fused score and every result carries the
fused score of its path; `fuse_scored` (with at least one additional
ranking) rescores the base list — using its current order as one of
the rankings — to a permutation sorted descending; and for the two
rankings `[a,b,c]` and `[c,b,a]` all three fused scores are within 5%
of `1/61 + 1/63`. -/
theorem rrf_fusion_spec (k : ℚ) (rankings : List (List String)) :
    ((∀ r ∈ rankings, r.Nodup) → ∀ p,
      rrfScore k rankings p =
        (rankings.map (fun r =>
          if p ∈ r then 1 / (k + (r.indexOf p : ℚ) + 1) else 0)).sum) ∧
    List.Sorted rrfGe (fuse k rankings) ∧
    (∀ res ∈ fuse k rankings, res.rrfScore = rrfScore k rankings res.path) ∧
    (∀ (base : List (ScoredFile ℚ)) (adds : List (List String)), adds ≠ [] →
      (fuseScored k base adds).Perm
        (base.map (fun f =>
          { f with score := rrfScore k (base.map (·.path) :: adds) f.path })) ∧
      List.Sorted scoredGeQ (fuseScored k base adds)) ∧
    (∀ p ∈ (["a", "b", "c"] : List String),
      |rrfScore 60 [["a", "b", "c"], ["c", "b", "a"]] p - (1/61 + 1/63)| ≤
        (5/100) * (1/61 + 1/63)) := by
  refine ⟨?_, List.sorted_insertionSort _ _, ?_, ?_, ?_⟩
  · intro hnd p
    show (rankings.map (rrfContribution k p)).sum = _
    refine congrArg List.sum (List.map_congr_left fun r hr => ?_)
    by_cases hp : p ∈ r
    · rw [rrfContribution_mem (hnd r hr) hp, if_pos hp]
    · rw [rrfContribution_not_mem hp, if_neg hp]
  · intro res hres
    have hmem : res ∈ (rankings.flatten.dedup).map
        (fun p => (⟨p, rrfScore k rankings p⟩ : RrfResult)) :=
      (List.perm_insertionSort _ _).mem_iff.mp hres
    obtain ⟨p, _, rfl⟩ := List.mem_map.mp hmem
    rfl
  · intro base adds hadds
    constructor
    · show (fuseScored k base adds).Perm _
      rw [fuseScored, if_neg hadds]
      exact List.perm_insertionSort _ _
    · rw [fuseScored, if_neg hadds]
      exact List.sorted_insertionSort _ _
  · intro p hp
    have ia : (["a", "b", "c"] : List String).indexOf "a" = 0 := rfl
    have ib : (["a", "b", "c"] : List String).indexOf "b" = 1 := rfl
    have ic : (["a", "b", "c"] : List String).indexOf "c" = 2 := rfl
    have ja : (["c", "b", "a"] : List String).indexOf "a" = 2 := rfl
    have jb : (["c", "b", "a"] : List String).indexOf "b" = 1 := rfl
    have jc : (["c", "b", "a"] : List String).indexOf "c" = 0 := rfl
    have hsum : ∀ q : String,
        rrfScore 60 [["a", "b", "c"], ["c", "b", "a"]] q =
          rrfContribution 60 q ["a", "b", "c"] +
            (rrfContribution 60 q ["c", "b", "a"] + 0) := fun q => rfl
    rcases List.mem_cons.mp hp with rfl | hp
    · rw [hsum, rrfContribution_mem (by decide) (by decide),
        rrfContribution_mem (by decide) (by decide), ia, ja]
      norm_num [abs_le]
    rcases List.mem_cons.mp hp with rfl | hp
    · rw [hsum, rrfContribution_mem (by decide) (by decide),
        rrfContribution_mem (by decide) (by decide), ib, jb]
      norm_num [abs_le]
    rcases List.mem_cons.mp hp with rfl | hp
    · rw [hsum, rrfContribution_mem (by decide) (by decide),
        rrfContribution_mem (by decide) (by decide), ic, jc]
      norm_num [abs_le]
    · simp at hp

/-- Claim C7, witness: the per-ranking contribution formula at a
concrete duplicate-free ranking. -/
theorem rrf_fusion_spec_witness :
    rrfScore 60 [["x", "y"]] "y" =
      ([["x", "y"]].map (fun r =>
        if "y" ∈ r then 1 / ((60 : ℚ) + (r.indexOf "y" : ℚ) + 1) else 0)).sum :=
  (rrf_fusion_spec 60 [["x", "y"]]).1 (by decide) "y"

theorem sum_map_ite {α : Type} (l : List α) (p : α → Prop) [DecidablePred p]
    (f : α → ℝ) :
    (l.map fun t => if p t then f t else 0).sum =
      ((l.filter (fun t => decide (p t))).map f).sum := by
  induction l with
  | nil => rfl
  | cons a tl ih =>
    rw [List.map_cons, List.sum_cons, List.filter_cons]
    by_cases hp : p a
    · rw [if_pos hp, if_pos (by simpa using hp), List.map_cons, List.sum_cons, ih]
    · rw [if_neg hp, if_neg (by simpa using hp), ih, zero_add]

theorem lengthNorm_pos {stats : CorpusStats} (havg : 0 ≤ stats.avgDocLength)
    (docLength : Nat) : 0 < lengthNorm stats docLength := by
  have hx : (0 : ℝ) ≤ (docLength : ℝ) / stats.avgDocLength :=
    div_nonneg (Nat.cast_nonneg _) havg
  have hb : bmB = 0.75 := rfl
  unfold lengthNorm
  rw [hb]
  norm_num
  nlinarith

theorem idfOf_nonneg {stats : CorpusStats} {t : String}
    (hdf : stats.docFrequencies t ≤ stats.totalDocs) : 0 ≤ idfOf stats t := by
  unfold idfOf
  apply Real.log_nonneg
  have hc : ((stats.docFrequencies t : ℝ)) ≤ (stats.totalDocs : ℝ) :=
    Nat.cast_le.mpr hdf
  have hnum : (0 : ℝ) ≤ (stats.totalDocs : ℝ) - (stats.docFrequencies t : ℝ) + 0.5 := by
    linarith
  have hden : (0 : ℝ) ≤ (stats.docFrequencies t : ℝ) + 0.5 := by positivity
  have := div_nonneg hnum hden
  linarith

/-- Claim C4: BM25F returns 0 for an empty query or corpus; otherwise
it is the sum, over query tokens with positive weighted term
frequency, of `idf * tf / (tf + k1 * length_norm)` with the spec's
field weights and parameters; under `df ≤ N` and a non-negative
average document length — both guaranteed by the corpus-stats
constructors — the score is non-negative. -/
theorem bm25f_spec (query : String) (stats : CorpusStats)
    (termFreqs : String → Option TermFreqs) (docLength : Nat) :
    (tokenize query = [] ∨ stats.totalDocs = 0 →
      (Bm25fScorer.new query stats).score termFreqs docLength = 0) ∧
    (tokenize query ≠ [] → stats.totalDocs ≠ 0 →
      (Bm25fScorer.new query stats).score termFreqs docLength =
        (((tokenize query).filter
            (fun t => decide (0 < tfWeighted termFreqs t))).map
          (fun t => idfOf stats t * tfWeighted termFreqs t /
            (tfWeighted termFreqs t + bmK1 * lengthNorm stats docLength))).sum) ∧
    ((∀ t, stats.docFrequencies t ≤ stats.totalDocs) → 0 ≤ stats.avgDocLength →
      0 ≤ (Bm25fScorer.new query stats).score termFreqs docLength) ∧
    (∀ paths t, (CorpusStats.fromPaths paths).docFrequencies t ≤
      (CorpusStats.fromPaths paths).totalDocs) ∧
    (∀ docs t, (CorpusStats.fromDocuments docs).docFrequencies t ≤
      (CorpusStats.fromDocuments docs).totalDocs) ∧
    (∀ paths, 0 ≤ (CorpusStats.fromPaths paths).avgDocLength) ∧
    (∀ docs, 0 ≤ (CorpusStats.fromDocuments docs).avgDocLength) ∧
    bmK1 = 1.2 ∧ bmB = 0.75 ∧ wFilename = 5.0 ∧ wSymbols = 3.0 ∧ wBody = 1.0 := by
  refine ⟨?_, ?_, ?_, ?_, ?_, ?_, ?_, rfl, rfl, rfl, rfl, rfl⟩
  · intro h
    simp only [Bm25fScorer.score, Bm25fScorer.new]
    rw [if_pos h]
    norm_num
  · intro h1 h2
    simp only [Bm25fScorer.score, Bm25fScorer.new]
    rw [if_neg (fun hor => hor.elim h1 h2)]
    have h00 : (0.0 : ℝ) = 0 := by norm_num
    simp only [h00]
    exact sum_map_ite (tokenize query) _ _
  · intro hdf havg
    simp only [Bm25fScorer.score, Bm25fScorer.new]
    split
    · norm_num
    · apply List.sum_nonneg
      intro x hx
      obtain ⟨t, _, rfl⟩ := List.mem_map.mp hx
      split
      · next htf =>
          have hln := lengthNorm_pos havg docLength
          have hidf := idfOf_nonneg (hdf t)
          have hk : (0 : ℝ) < bmK1 := by norm_num [bmK1]
          have hden : 0 < tfWeighted termFreqs t + bmK1 * lengthNorm stats docLength :=
            add_pos htf (mul_pos hk hln)
          exact div_nonneg (mul_nonneg hidf (le_of_lt htf)) (le_of_lt hden)
      · norm_num
  · intro paths t
    exact List.countP_le_length _
  · intro docs t
    exact List.countP_le_length _
  · intro paths
    simp only [CorpusStats.fromPaths]
    split
    · norm_num
    · exact div_nonneg (Nat.cast_nonneg _) (Nat.cast_nonneg _)
  · intro docs
    simp only [CorpusStats.fromDocuments]
    split
    · exact div_nonneg (Nat.cast_nonneg _) (Nat.cast_nonneg _)
    · norm_num

/-- Claim C4, witness: a concrete shallow-mode score is non-negative,
with the constructor guarantees discharged by the theorem's own
constructor conjuncts. -/
theorem bm25f_spec_witness :
    0 ≤ (Bm25fScorer.new "auth"
      (CorpusStats.fromPaths ["src/auth.rs", "README.md"])).score
      (pathTermFreqs "src/auth.rs") 3 := by
  have H := bm25f_spec "auth" (CorpusStats.fromPaths ["src/auth.rs", "README.md"])
    (pathTermFreqs "src/auth.rs") 3
  exact H.2.2.1 (fun t => H.2.2.2.1 ["src/auth.rs", "README.md"] t)
    (H.2.2.2.2.2.1 ["src/auth.rs", "README.md"])

/-- Claim C8: default hybrid weights are `(0.6, 0.4)` and custom
weights are normalized to sum to 1; the output assigns every file the
combined score `w_b * bm25f + w_h * heuristic` (it is a permutation
of the per-file records), is sorted non-increasing by score, and ties
are broken stably: the sublist at any fixed score equals the sublist
of the unsorted per-file records at that score, i.e. equal scores
keep their input order. -/
theorem hybrid_scorer_spec (s : HybridScorer) (files : List FileInfo) :
    ((HybridScorer.new s.query).bm25fWeight = 0.6 ∧
      (HybridScorer.new s.query).heuristicWeight = 0.4) ∧
    (∀ bm heu : ℝ, ((HybridScorer.new s.query).weights bm heu).bm25fWeight +
      ((HybridScorer.new s.query).weights bm heu).heuristicWeight = 1) ∧
    (s.score files).Perm (files.map (mkScored s
      (Bm25fScorer.new s.query (CorpusStats.fromPaths (files.map (·.path))))
      (HeuristicScorer.new s.query))) ∧
    (∀ g ∈ s.score files, ∃ f ∈ files, g.path = f.path ∧
      g.score = s.bm25fWeight *
          (Bm25fScorer.new s.query
            (CorpusStats.fromPaths (files.map (·.path)))).scorePath f.path +
        s.heuristicWeight * (HeuristicScorer.new s.query).score f.path f.role f.size) ∧
    List.Sorted scoredGeR (s.score files) ∧
    (∀ c : ℝ, (s.score files).filter (fun x => decide (x.score = c)) =
      (files.map (mkScored s
        (Bm25fScorer.new s.query (CorpusStats.fromPaths (files.map (·.path))))
        (HeuristicScorer.new s.query))).filter (fun x => decide (x.score = c))) := by
  have hperm : (s.score files).Perm (files.map (mkScored s
      (Bm25fScorer.new s.query (CorpusStats.fromPaths (files.map (·.path))))
      (HeuristicScorer.new s.query))) := by
    by_cases hf : files = []
    · subst hf
      simp [HybridScorer.score]
    · simp only [HybridScorer.score, if_neg hf]
      exact List.perm_insertionSort _ _
  refine ⟨⟨rfl, rfl⟩, ?_, hperm, ?_, ?_, ?_⟩
  · intro bm heu
    simp only [HybridScorer.weights]
    split
    · next h =>
        show bm / (bm + heu) + heu / (bm + heu) = 1
        rw [div_add_div_same]
        exact div_self (ne_of_gt h)
    · show (0.6 : ℝ) + 0.4 = 1
      norm_num
  · intro g hg
    have hg2 := hperm.mem_iff.mp hg
    obtain ⟨f, hf, rfl⟩ := List.mem_map.mp hg2
    exact ⟨f, hf, rfl, rfl⟩
  · by_cases hf : files = []
    · subst hf
      simp [HybridScorer.score]
    · simp only [HybridScorer.score, if_neg hf]
      exact List.sorted_insertionSort _ _
  · intro c
    by_cases hf : files = []
    · subst hf
      simp [HybridScorer.score]
    · simp only [HybridScorer.score, if_neg hf]
      exact insertionSort_filter_eq _ c

/-- Claim C8, witness: the combined-score formula at a concrete
single-file input. -/
theorem hybrid_scorer_spec_witness :
    ∃ f ∈ [(⟨"a.rs", 4, .rust, .implementation, []⟩ : FileInfo)],
      (mkScored (HybridScorer.new "q")
        (Bm25fScorer.new "q" (CorpusStats.fromPaths
          ([(⟨"a.rs", 4, .rust, .implementation, []⟩ : FileInfo)].map (·.path))))
        (HeuristicScorer.new "q")
        ⟨"a.rs", 4, .rust, .implementation, []⟩).path = f.path ∧
      (mkScored (HybridScorer.new "q")
        (Bm25fScorer.new "q" (CorpusStats.fromPaths
          ([(⟨"a.rs", 4, .rust, .implementation, []⟩ : FileInfo)].map (·.path))))
        (HeuristicScorer.new "q")
        ⟨"a.rs", 4, .rust, .implementation, []⟩).score =
        (HybridScorer.new "q").bm25fWeight *
          (Bm25fScorer.new "q" (CorpusStats.fromPaths
            ([(⟨"a.rs", 4, .rust, .implementation, []⟩ : FileInfo)].map
              (·.path)))).scorePath f.path +
        (HybridScorer.new "q").heuristicWeight *
          (HeuristicScorer.new "q").score f.path f.role f.size := by
  have H := hybrid_scorer_spec (HybridScorer.new "q")
    [⟨"a.rs", 4, .rust, .implementation, []⟩]
  exact H.2.2.2.1 _ (by
    simp [HybridScorer.score, List.insertionSort, List.orderedInsert,
      HybridScorer.new])

/-- Claim C10: the hybrid scorer emits exactly one `ScoredFile` per
input file — none is dropped however low its score — and each record
copies its file's path, language and role unchanged with
`tokens = size / 4` (integer division, via the spec-modelled
`estimated_tokens`). -/
theorem hybrid_scorer_total (s : HybridScorer) (files : List FileInfo) :
    (s.score files).length = files.length ∧
    (∀ g ∈ s.score files, ∃ f ∈ files, g.path = f.path ∧
      g.language = f.language ∧ g.role = f.role ∧ g.tokens = f.size / 4) ∧
    (∀ f ∈ files, ∃ g ∈ s.score files, g.path = f.path ∧
      g.language = f.language ∧ g.role = f.role ∧ g.tokens = f.size / 4) := by
  have hperm : (s.score files).Perm (files.map (mkScored s
      (Bm25fScorer.new s.query (CorpusStats.fromPaths (files.map (·.path))))
      (HeuristicScorer.new s.query))) := by
    by_cases hf : files = []
    · subst hf
      simp [HybridScorer.score]
    · simp only [HybridScorer.score, if_neg hf]
      exact List.perm_insertionSort _ _
  refine ⟨?_, ?_, ?_⟩
  · rw [hperm.length_eq, List.length_map]
  · intro g hg
    obtain ⟨f, hf, rfl⟩ := List.mem_map.mp (hperm.mem_iff.mp hg)
    exact ⟨f, hf, rfl, rfl, rfl, rfl⟩
  · intro f hf
    refine ⟨mkScored s
      (Bm25fScorer.new s.query (CorpusStats.fromPaths (files.map (·.path))))
      (HeuristicScorer.new s.query) f,
      hperm.mem_iff.mpr (List.mem_map_of_mem _ hf), rfl, rfl, rfl, rfl⟩

/-- Claim C10, witness: the record of a concrete file carries its
path, language, role and `size / 4` tokens. -/
theorem hybrid_scorer_total_witness :
    ∃ g ∈ (HybridScorer.new "q").score
        [(⟨"lib.rs", 10, .rust, .implementation, []⟩ : FileInfo)],
      g.path = "lib.rs" ∧ g.language = Language.rust ∧
      g.role = FileRole.implementation ∧ g.tokens = 10 / 4 := by
  have H := hybrid_scorer_total (HybridScorer.new "q")
    [⟨"lib.rs", 10, .rust, .implementation, []⟩]
  exact H.2.2 _ (List.mem_singleton.mpr rfl)

theorem itemComps_some_ne_nil {it : WalkItem} {cs : List String}
    (h : itemComps it = some cs) : cs ≠ [] := by
  match it with
  | .error u => simp [itemComps] at h
  | .ok e =>
    simp only [itemComps] at h
    split at h
    · cases h
    · next hne =>
        cases h
        exact hne

theorem processEntry_some_shape {lo : String → Language} {ro : String → FileRole}
    {it : WalkItem} {f : FileInfo} (h : processEntry lo ro it = some f) :
    ∃ cs, itemComps it = some cs ∧ cs ≠ [] ∧ cs.head? ≠ some ".topo" ∧
      f.path = joinPath cs := by
  match it with
  | .error u => simp [processEntry] at h
  | .ok e =>
    simp only [processEntry] at h
    split_ifs at h with h1 h2 h3
    rcases hm : e.meta with u | m
    · rw [hm] at h
      cases h
    · rw [hm] at h
      simp only at h
      split_ifs at h with h4
      rcases hh : e.hashRes with u | hsh
      · rw [hh] at h
        cases h
      · rw [hh] at h
        simp only at h
        cases h
        refine ⟨e.comps, ?_, h2, h3, rfl⟩
        simp [itemComps, h2]

theorem itemComps_none_processEntry (lo : String → Language) (ro : String → FileRole)
    {it : WalkItem} (h : itemComps it = none) : processEntry lo ro it = none := by
  match it with
  | .error u => rfl
  | .ok e =>
    simp only [itemComps] at h
    split at h
    · next hc =>
        simp only [processEntry, hc]
        split_ifs <;> rfl
    · cases h

theorem scanPaths_sublist (lo : String → Language) (ro : String → FileRole) :
    ∀ items : List WalkItem,
      List.Sublist ((items.filterMap (processEntry lo ro)).map (·.path))
        ((items.filterMap itemComps).map joinPath) := by
  intro items
  induction items with
  | nil => exact List.Sublist.refl _
  | cons it rest ih =>
    rcases hpe : processEntry lo ro it with _ | f
    · rcases hic : itemComps it with _ | cs
      · simp only [List.filterMap_cons, hpe, hic]
        exact ih
      · simp only [List.filterMap_cons, hpe, hic, List.map_cons]
        exact ih.cons _
    · obtain ⟨cs, hic, _, _, hpath⟩ := processEntry_some_shape hpe
      simp only [List.filterMap_cons, hpe, hic, List.map_cons, hpath]
      exact ih.cons₂ _

theorem joinPath_inj_on {cs cs' : List String} (h1 : cs ≠ []) (h2 : cs' ≠ [])
    (hw : ∀ c ∈ cs, '/' ∉ c.data) (hw' : ∀ c ∈ cs', '/' ∉ c.data)
    (h : joinPath cs = joinPath cs') : cs = cs' := by
  have hinj : Function.Injective String.data := fun a b hab => by
    cases a; cases b; exact congrArg String.mk hab
  have hd : combineSep '/' (cs.map String.data) =
      combineSep '/' (cs'.map String.data) := congrArg String.data h
  have hm := combineSep_inj '/' _ _
    (fun x hx => by
      obtain ⟨c, hc, rfl⟩ := List.mem_map.mp hx
      exact hw c hc)
    (fun x hx => by
      obtain ⟨c, hc, rfl⟩ := List.mem_map.mp hx
      exact hw' c hc)
    (by simpa using h1) (by simpa using h2) hd
  exact List.map_injective_iff.mpr hinj hm

theorem joinPath_not_topo (c₁ : String) (cs : List String)
    (hw : ∀ c ∈ c₁ :: cs, '/' ∉ c.data) (hne : c₁ ≠ ".topo") :
    joinPath (c₁ :: cs) ≠ ".topo" ∧
      ¬ (".topo/".data <+: (joinPath (c₁ :: cs)).data) := by
  cases cs with
  | nil =>
    constructor
    · intro h
      apply hne
      have : String.mk c₁.data = c₁ := by cases c₁; rfl
      rw [← this]
      exact h
    · rintro ⟨t, ht⟩
      have hsl : '/' ∈ c₁.data := by
        have : (joinPath [c₁]).data = c₁.data := by cases c₁; rfl
        rw [this] at ht
        rw [← ht]
        exact List.mem_append_left _ (by decide)
      exact hw c₁ (List.mem_cons_self _ _) hsl
  | cons c₂ cs' =>
    have hdata : (joinPath (c₁ :: c₂ :: cs')).data =
        c₁.data ++ '/' :: combineSep '/' (c₂.data :: cs'.map String.data) := rfl
    constructor
    · intro h
      have hd := congrArg String.data h
      rw [hdata] at hd
      have : '/' ∈ (".topo" : String).data := by
        rw [← hd]
        exact List.mem_append_right _ (List.mem_cons_self _ _)
      exact absurd this (by decide)
    · rintro ⟨t, ht⟩
      rw [hdata] at ht
      have ht' : (".topo" : String).data ++ '/' :: t =
          c₁.data ++ '/' :: combineSep '/' (c₂.data :: cs'.map String.data) := ht
      have := sepFree_append_inj '/' _ _ _ _ (by decide)
        (hw c₁ (List.mem_cons_self _ _)) ht'
      apply hne
      have hmk : String.mk c₁.data = c₁ := by cases c₁; rfl
      rw [← hmk, ← this.1]

/-- Claim C9: the file list of one scan has pairwise-distinct paths
sorted ascending (byte-lexicographically), and contains no path equal
to `.topo` or under `.topo/` — assuming the walked filesystem yields
distinct non-root relative paths whose components contain no `/`. -/
theorem scan_invariants (lo : String → Language) (ro : String → FileRole)
    (items : List WalkItem)
    (hnd : (items.filterMap itemComps).Nodup)
    (hwf : ∀ cs ∈ items.filterMap itemComps, ∀ c ∈ cs, '/' ∉ c.data) :
    ∀ fs, scan lo ro items = .ok fs →
      (fs.map (·.path)).Nodup ∧ List.Sorted pathLe fs ∧
      ∀ f ∈ fs, f.path ≠ ".topo" ∧ ¬ (".topo/".data <+: f.path.data) := by
  intro fs hscan
  have hfs : fs = List.insertionSort pathLe (items.filterMap (processEntry lo ro)) := by
    cases hscan
    rfl
  subst hfs
  refine ⟨?_, List.sorted_insertionSort _ _, ?_⟩
  · have hrhs : (((items.filterMap itemComps).map joinPath)).Nodup := by
      apply List.Nodup.map_on ?_ hnd
      intro cs hcs cs' hcs' hj
      exact joinPath_inj_on
        (itemComps_some_ne_nil (List.mem_filterMap.mp hcs).choose_spec.2)
        (itemComps_some_ne_nil (List.mem_filterMap.mp hcs').choose_spec.2)
        (hwf cs hcs) (hwf cs' hcs') hj
    have hsub := scanPaths_sublist lo ro items
    have hL : ((items.filterMap (processEntry lo ro)).map (·.path)).Nodup :=
      hsub.nodup hrhs
    exact (((List.perm_insertionSort pathLe _)).map (·.path)).nodup_iff.mpr hL
  · intro f hf
    have hfL : f ∈ items.filterMap (processEntry lo ro) :=
      (List.perm_insertionSort pathLe _).mem_iff.mp hf
    obtain ⟨it, hit, hpe⟩ := List.mem_filterMap.mp hfL
    obtain ⟨cs, hic, hcne, htopo, hpath⟩ := processEntry_some_shape hpe
    have hcs : cs ∈ items.filterMap itemComps := List.mem_filterMap.mpr ⟨it, hit, hic⟩
    match cs, hcne with
    | c₁ :: cs', _ =>
      have hc1 : c₁ ≠ ".topo" := by
        intro h
        exact htopo (by rw [h]; rfl)
      have := joinPath_not_topo c₁ cs' (hwf _ hcs) hc1
      rw [hpath]
      exact this

/-- Claim C9, witness: a concrete four-item walk (one directory, one
`.topo/` entry) scans to distinct sorted paths avoiding `.topo/`. -/
theorem scan_invariants_witness :
    (([⟨"README.md", 2, .other, .other, [3]⟩,
       ⟨"src/main.rs", 8, .other, .other, [1]⟩] : List FileInfo).map (·.path)).Nodup ∧
    List.Sorted pathLe
      [⟨"README.md", 2, .other, .other, [3]⟩,
       ⟨"src/main.rs", 8, .other, .other, [1]⟩] ∧
    ∀ f ∈ ([⟨"README.md", 2, .other, .other, [3]⟩,
       ⟨"src/main.rs", 8, .other, .other, [1]⟩] : List FileInfo),
      f.path ≠ ".topo" ∧ ¬ (".topo/".data <+: f.path.data) :=
  scan_invariants (fun _ => .other) (fun _ => .other)
    [Except.ok ⟨["src", "main.rs"], false, .ok ⟨true, 8⟩, .ok [1]⟩,
     Except.ok ⟨["src"], true, .ok ⟨false, 0⟩, .error ()⟩,
     Except.ok ⟨[".topo", "index.bin"], false, .ok ⟨true, 4⟩, .ok [2]⟩,
     Except.ok ⟨["README.md"], false, .ok ⟨true, 2⟩, .ok [3]⟩]
    (by decide) (by decide) _ rfl

end Atlas
